import Mathlib
/-!
# Verification of sandworm's file-selection and concatenation engine

This file embeds the core of the `holonoms/sandworm` repository in Lean 4:

* `FilepathMatch` — Go's `path/filepath.Match` glob matcher (POSIX separator),
  which the gitignore engine delegates single-segment matching to.  Strings are
  modelled as their rune (character) sequences; the inputs relevant here are
  ASCII, where Go's byte-wise iteration and rune-wise iteration coincide.
* `Gitignore` — the `go-git/v5 plumbing/format/gitignore` pattern parser and
  matcher (`ParsePattern`, `pattern.Match`, `matcher.Match`), the external
  dependency invoked by `internal/processor/processor.go`.
* `Filetree` — `internal/filetree/filetree.go` (ASCII tree rendering).
* `Processor` — `internal/processor/processor.go`: matcher construction
  (`NewWithOptions`), traversal (`collectFiles`, whose directory walking is
  performed by the external `godirwalk` library and is modelled from the spec),
  and document assembly (`Process`, `writeStructure`, `writeContents`,
  `writeContentWithLineNumbers`).
-/

set_option maxRecDepth 40000

namespace FilepathMatch

/-- The path separator used by `path/filepath.Match` on POSIX systems. -/
def separator : Char := '/'

/-- Go `scanChunk`, first phase: strip the leading run of `*`s. -/
def dropStars : List Char → List Char
  | [] => []
  | c :: rest => if c == '*' then dropStars rest else c :: rest

/-- Go `scanChunk`, second phase: the length of the chunk, i.e. the scan up to
the next unescaped `*` that is outside a character class (a backslash escapes
the next character when one exists). -/
def chunkLen (inrange : Bool) : List Char → Nat
  | [] => 0
  | c :: rest =>
    if c == '\\' then
      match rest with
      | [] => 1
      | _ :: rest' => 2 + chunkLen inrange rest'
    else if c == '[' then 1 + chunkLen true rest
    else if c == ']' then 1 + chunkLen false rest
    else if c == '*' then (if inrange then 1 + chunkLen inrange rest else 0)
    else 1 + chunkLen inrange rest

/-- Go `scanChunk`: gets the next segment of the pattern, a possible leading
`*` run followed by a chunk up to the next `*`. -/
def scanChunk (p : List Char) : Bool × List Char × List Char :=
  let star := p.head? == some '*'
  let q := dropStars p
  let n := chunkLen false q
  (star, q.take n, q.drop n)

/-- Go `getEsc`: gets a possibly-escaped character from a character-class
chunk.  `none` models `ErrBadPattern`. -/
def getEsc (chunk : List Char) : Option (Char × List Char) :=
  match chunk with
  | [] => none
  | c :: rest =>
    if c == '-' || c == ']' then none
    else
      match (if c == '\\' then rest else c :: rest) with
      | [] => none
      | r :: rest' => if rest'.isEmpty then none else some (r, rest')

/-- The result of Go `matchChunk`: a bad pattern (`err != nil`), a failed
match, or a successful match returning the unconsumed tail of the name. -/
inductive MCRes where
  | bad
  | fail
  | ok (rest : List Char)
deriving DecidableEq

/-- The range-parsing loop inside Go `matchChunk`'s `'['` case.  `first`
corresponds to `nrange == 0`; `m` accumulates whether `r` fell inside some
range.  Returns `none` on a bad pattern, otherwise the accumulated match and
the chunk after the closing `]`.  `fuel` bounds the iteration count; every
iteration consumes at least one character of the chunk, so any fuel above the
chunk length is enough, and all uses below supply that much. -/
def classRanges : Nat → Char → Bool → Bool → List Char → Option (Bool × List Char)
  | 0, _, _, _, _ => none
  | fuel + 1, r, first, m, chunk =>
    if chunk.head? == some ']' && !first then
      some (m, chunk.tail)
    else
      match getEsc chunk with
      | none => none
      | some (lo, rest) =>
        match rest with
        | '-' :: rest2 =>
          match getEsc rest2 with
          | none => none
          | some (hi, rest3) =>
            classRanges fuel r false (m || (lo.val ≤ r.val && r.val ≤ hi.val)) rest3
        | _ =>
          classRanges fuel r false (m || (lo.val ≤ r.val && r.val ≤ lo.val)) rest

/-- Go `matchChunk`: matches the beginning of `s` against a chunk (a section of
a pattern with no stars).  The `failed` flag mirrors the local variable of the
Go code: once the match has failed the loop keeps checking the chunk for bad
patterns without consuming `s`.  When `failed = false`, the invariant of the
Go loop — established by its first statement — is that `s` is nonempty
whenever a character of it is inspected; the `.bad` fallbacks on the empty
list in those spots are unreachable.  Each iteration consumes at least one
character of the chunk, so fuel above the chunk length is enough. -/
def matchChunk : Nat → List Char → List Char → Bool → MCRes
  | 0, _, _, _ => .bad
  | fuel + 1, chunk, s, failed0 =>
    match chunk with
    | [] => if failed0 then .fail else .ok s
    | c :: cs =>
      let failed := failed0 || s.isEmpty
      if c == '[' then
        let r := if failed then Char.ofNat 0 else s.headD (Char.ofNat 0)
        let s' := if failed then s else s.tail
        let (neg, cs') := match cs with
          | '^' :: t => (true, t)
          | _ => (false, cs)
        match classRanges fuel r true false cs' with
        | none => .bad
        | some (m, cs'') => matchChunk fuel cs'' s' (failed || (m == neg))
      else if c == '?' then
        if failed then matchChunk fuel cs s true
        else
          match s with
          | [] => .bad
          | x :: xs => matchChunk fuel cs xs (x == separator)
      else if c == '\\' then
        match cs with
        | [] => .bad
        | e :: cs' =>
          -- fallthrough into the default case with the escaped character
          if failed then matchChunk fuel cs' s true
          else
            match s with
            | [] => .bad
            | x :: xs => matchChunk fuel cs' xs (e != x)
      else
        if failed then matchChunk fuel cs s true
        else
          match s with
          | [] => .bad
          | x :: xs => matchChunk fuel cs xs (c != x)

/-- The `if star` retry loop of Go `Match`: look for a chunk match skipping
one more leading character of the name each time, never skipping a separator.
Returns `none` on a bad pattern, `some none` when the loop exhausts the name,
and `some (some t)` when a retry succeeds with remaining name `t`. -/
def starLoop (fuelC : Nat) (chunk rest : List Char) : List Char → Option (Option (List Char))
  | [] => some none
  | c :: tl =>
    if c == separator then some none
    else
      match matchChunk fuelC chunk tl false with
      | .bad => none
      | .ok t =>
        if rest.isEmpty && !t.isEmpty then starLoop fuelC chunk rest tl
        else some (some t)
      | .fail => starLoop fuelC chunk rest tl

/-- The final loop of Go `Match`: before returning a non-match, check that the
remainder of the pattern is syntactically valid. -/
def checkRest : Nat → List Char → Option Bool
  | 0, _ => none
  | fuel + 1, pattern =>
    match pattern with
    | [] => some false
    | _ :: _ =>
      let (_, chunk, rest) := scanChunk pattern
      match matchChunk (chunk.length + 1) chunk [] false with
      | .bad => none
      | _ => checkRest fuel rest

/-- The `Pattern:` loop of Go `Match`.  Every iteration continues with the
strictly shorter rest of the pattern, so fuel above the pattern length is
enough; `fpMatch` supplies it. -/
def matchLoop : Nat → List Char → List Char → Option Bool
  | 0, _, _ => none
  | fuel + 1, pattern, name =>
    match pattern with
    | [] => some name.isEmpty
    | _ :: _ =>
      let (star, chunk, rest) := scanChunk pattern
      if star && chunk.isEmpty then
        -- Trailing * matches the rest of the name unless it has a separator.
        some (!name.contains separator)
      else
        let fallback : Option Bool :=
          if star then
            match starLoop (chunk.length + 1) chunk rest name with
            | none => none
            | some (some t) => matchLoop fuel rest t
            | some none => checkRest (rest.length + 1) rest
          else checkRest (rest.length + 1) rest
        match matchChunk (chunk.length + 1) chunk name false with
        | .ok t => if t.isEmpty || !rest.isEmpty then matchLoop fuel rest t else fallback
        | .bad => none
        | .fail => fallback

/-- Go `path/filepath.Match pattern name` with the POSIX separator.
`none` models `ErrBadPattern`. -/
def fpMatch (pattern name : String) : Option Bool :=
  matchLoop (pattern.data.length + 1) pattern.data name.data

end FilepathMatch

namespace Gitignore

/-- go-git `MatchResult`: outcome of matching one pattern against a path. -/
inductive MatchResult where
  | NoMatch
  | Exclude
  | Include
deriving DecidableEq

/-- go-git `pattern`: a parsed gitignore pattern. -/
structure Pattern where
  domain : List String
  pattern : List String
  inclusion : Bool
  dirOnly : Bool
  isGlob : Bool
deriving DecidableEq

/-- `strings.Split s "/"` on a rune list, producing the separated fields
(empty fields kept; the empty input yields one empty field). -/
def splitSlashAux : List Char → List Char → List String
  | [], acc => [String.mk acc.reverse]
  | c :: t, acc =>
    if c == '/' then String.mk acc.reverse :: splitSlashAux t []
    else splitSlashAux t (c :: acc)

/-- `strings.Split s "/"`. -/
def splitSlash (s : List Char) : List String := splitSlashAux s []

/-- `strings.TrimRight p " "`. -/
def trimTrailingSpaces (s : List Char) : List Char :=
  (s.reverse.dropWhile (· == ' ')).reverse

/-- go-git `ParsePattern`: strips a leading `!` (negation), trims unescaped
trailing spaces, strips a trailing `/` (directory-only), and splits the rest
on `/`; a pattern containing a `/` is a glob (anchored) pattern. -/
def ParsePattern (p : String) (domain : List String) : Pattern :=
  let c0 := p.data
  let (inc, c1) :=
    if c0.head? == some '!' then (true, c0.tail) else (false, c0)
  let c2 := if c1.reverse.take 2 == [' ', '\\'] then c1 else trimTrailingSpaces c1
  let (dOnly, c3) :=
    if c2.getLast? == some '/' then (true, c2.dropLast) else (false, c2)
  { domain := domain
    pattern := splitSlash c3
    inclusion := inc
    dirOnly := dOnly
    isGlob := c3.contains '/' }

/-- go-git `pattern.simpleNameMatch`: a pattern without `/` is tried against
every segment of the path (so it also matches files below a matching
directory); a directory-only pattern must not match at the final segment of a
non-directory path. -/
def simpleNameMatch (pat : String) (dOnly : Bool) : List String → Bool → Bool
  | [], _ => false
  | name :: rest, isDir =>
    match FilepathMatch.fpMatch pat name with
    | none => false
    | some false => simpleNameMatch pat dOnly rest isDir
    | some true => if dOnly && !isDir && rest.isEmpty then false else true

/-- `strings.Contains pat "**"` on a rune list. -/
def hasStarStar : List Char → Bool
  | '*' :: '*' :: _ => true
  | _ :: t => hasStarStar t
  | [] => false

/-- The final statement of go-git `pattern.globMatch` after its loop. -/
def globFinal (dOnly isDir matched : Bool) (path : List String) : Bool :=
  if matched && dOnly && !isDir && path.isEmpty then false else matched

/-- The segment loop of go-git `pattern.globMatch`, folding over the pattern
segments with the `matched`/`canTraverse` state and the remaining path. -/
def globSegs (dOnly isDir : Bool) : List String → Bool → Bool → List String → Bool
  | [], matched, _, path => globFinal dOnly isDir matched path
  | pat :: rest, matched, canTrav, path =>
    if pat == "" then globSegs dOnly isDir rest matched false path
    else if pat == "**" then
      if rest.isEmpty then globFinal dOnly isDir matched path
      else globSegs dOnly isDir rest matched true path
    else if hasStarStar pat.data then false
    else
      match path with
      | [] => false
      | e :: ptail =>
        if canTrav then
          match traverseLoopChecked pat (e :: ptail) with
          | none => false
          | some (m, path') => globSegs dOnly isDir rest m false path'
        else
          match FilepathMatch.fpMatch pat e with
          | some true => globSegs dOnly isDir rest true false ptail
          | _ => false
where
  /-- Same loop, but a bad pattern aborts the whole match (Go returns `false`
  from `globMatch` when `filepath.Match` errors). -/
  traverseLoopChecked (pat : String) : List String → Option (Bool × List String)
    | [] => some (false, [])
    | e :: rest =>
      match FilepathMatch.fpMatch pat e with
      | none => none
      | some true => some (true, rest)
      | some false => traverseLoopChecked pat rest

/-- go-git `pattern.globMatch`. -/
def globMatch (p : Pattern) (path : List String) (isDir : Bool) : Bool :=
  globSegs p.dirOnly isDir p.pattern false false path

/-- go-git `pattern.Match`: domain check, then glob or simple-name matching,
then the inclusion/exclusion verdict. -/
def Pattern.MatchRes (p : Pattern) (path : List String) (isDir : Bool) : MatchResult :=
  if path.length ≤ p.domain.length then .NoMatch
  else if !(p.domain.isPrefixOf path) then .NoMatch
  else
    let rest := path.drop p.domain.length
    let hit :=
      if p.isGlob then globMatch p rest isDir
      else simpleNameMatch (p.pattern.headD "") p.dirOnly rest isDir
    if !hit then .NoMatch
    else if p.inclusion then .Include
    else .Exclude

/-- A go-git `Matcher` is an ordered pattern list (lowest priority first). -/
abbrev Matcher := List Pattern

/-- The scan inside go-git `matcher.Match`: the patterns are given highest
priority first; the first pattern that matches decides. -/
def firstDec : List Pattern → List String → Bool → Option MatchResult
  | [], _, _ => none
  | p :: rest, path, isDir =>
    match p.MatchRes path isDir with
    | .NoMatch => firstDec rest path isDir
    | r => some r

/-- go-git `matcher.Match`: scans the patterns from last (highest priority) to
first and returns whether the first match found is an exclusion. -/
def Matcher.Match (m : Matcher) (path : List String) (isDir : Bool) : Bool :=
  firstDec m.reverse path isDir == some .Exclude

end Gitignore

namespace SortUtil

/-!  Go's `sort.Strings` (used by `filetree`) and `godirwalk`'s sorted
directory scans order strings by the byte-wise `<` of Go strings, which on the
ASCII data handled here is the lexicographic order on code points.  Since any
correct sort of a string list is the unique ordered permutation (duplicate
strings are indistinguishable), a structural insertion sort is an exact model
of the result. -/

/-- Lexicographic comparison of rune sequences (Go string `<=`). -/
def lexLe : List Char → List Char → Bool
  | [], _ => true
  | _ :: _, [] => false
  | x :: xs, y :: ys =>
    if x.toNat < y.toNat then true
    else if y.toNat < x.toNat then false
    else lexLe xs ys

/-- Go string comparison `a <= b`. -/
def strLe (a b : String) : Bool := lexLe a.data b.data

/-- Insertion step of the sort, ordering by a string key. -/
def insertKey {β : Type} (key : β → String) (a : β) : List β → List β
  | [] => [a]
  | b :: t => if strLe (key a) (key b) then a :: b :: t else b :: insertKey key a t

/-- Insertion sort by a string key: the unique ordering (up to ties) produced
by Go's sorted scans. -/
def sortKey {β : Type} (key : β → String) : List β → List β
  | [] => []
  | a :: t => insertKey key a (sortKey key t)

/-- Sortedness by the key, as a pairwise property. -/
def KeySorted {β : Type} (key : β → String) (l : List β) : Prop :=
  l.Pairwise (fun x y => strLe (key x) (key y) = true)

end SortUtil

namespace Filetree

/-- `filetree.Node`: Go's recursive `map[string]any`, modelled as an
association list from names to child nodes (files are nodes with no
children).  The list order stands for the arbitrary iteration order of the Go
map; rendering sorts names, and the rendering is proved invariant under
permutations of the entry lists (`NodeString` depends only on the map). -/
inductive Node where
  | mk (entries : List (String × Node))

/-- The entries of a node. -/
def Node.entries : Node → List (String × Node)
  | .mk es => es

/-- Updating the value stored at an existing key of the Go map. -/
def updateEntry : List (String × Node) → String → Node → List (String × Node)
  | [], _, _ => []
  | (k, v) :: t, nm, nv =>
    if k == nm then (nm, nv) :: t else (k, v) :: updateEntry t nm nv

/-- `FileTree.addPath`: walk the components (skipping empty ones), creating
nested empty nodes along the way. -/
def addParts : Node → List String → Node
  | n, [] => n
  | n, part :: rest =>
    if part == "" then addParts n rest
    else
      match n.entries.lookup part with
      | some child => .mk (updateEntry n.entries part (addParts child rest))
      | none => .mk (n.entries ++ [(part, addParts (.mk []) rest)])

/-- `filetree.New`: insert every path, split on `/`. -/
def New (paths : List String) : Node :=
  paths.foldl (fun t p => addParts t (Gitignore.splitSlash p.data)) (.mk [])

/-- The sorted directory names of a node (`dirs` in `buildTree`: names whose
child node is nonempty). -/
def dirNames (es : List (String × Node)) : List String :=
  SortUtil.sortKey id ((es.filter (fun e => !e.2.entries.isEmpty)).map Prod.fst)

/-- The sorted file names of a node (`files` in `buildTree`). -/
def fileNames (es : List (String × Node)) : List String :=
  SortUtil.sortKey id ((es.filter (fun e => e.2.entries.isEmpty)).map Prod.fst)

/-- The child of a node under a name (`node[name].(Node)`; the name is always
present when this is consulted). -/
def childOf (es : List (String × Node)) (nm : String) : Node :=
  (es.lookup nm).getD (.mk [])

/-- `FileTree.buildTree`: produce the rendered lines below one node.  `fuel`
bounds the recursion depth; every caller supplies more fuel than the tree is
deep, and a node with no entries renders no lines at any fuel, so the bound is
immaterial to the rendered result. -/
def buildTree : Nat → Node → String → List String
  | 0, _, _ => []
  | fuel + 1, n, pref =>
    let dirs := dirNames n.entries
    let files := fileNames n.entries
    let entries := dirs ++ files
    (entries.enum.map (fun e =>
      let i := e.1
      let nm := e.2
      let isLast := i == entries.length - 1
      let connector := if isLast then "└── " else "├── "
      let isDir := i < dirs.length
      let displayName := if isDir then nm ++ "/" else nm
      let line := pref ++ connector ++ displayName
      if isDir then
        let newPref := pref ++ (if isLast then "    " else "│   ")
        line :: buildTree fuel (childOf n.entries nm) newPref
      else [line])).flatten

/-- `FileTree.String`: the root marker line followed by the tree lines,
joined with newlines. -/
def NodeString (fuel : Nat) (t : Node) (customRoot : String) : String :=
  String.intercalate "\n" (("/" ++ customRoot) :: buildTree fuel t "")

/-- Ample rendering fuel for a path list: more than any node depth. -/
def treeFuel (paths : List String) : Nat :=
  paths.foldl (fun a p => a + p.length) 0 + 1

/-- `filetree.Build`: create and render the tree in one step. -/
def Build (paths : List String) (customRoot : String) : String :=
  NodeString (treeFuel paths) (New paths) customRoot

end Filetree

namespace Processor

/-- `strings.Split s "\n"` (empty fields kept, empty input gives one empty
field), as rune lists. -/
def splitNlAux : List Char → List Char → List String
  | [], acc => [String.mk acc.reverse]
  | c :: t, acc =>
    if c == '\n' then String.mk acc.reverse :: splitNlAux t []
    else splitNlAux t (c :: acc)

/-- `strings.Split s "\n"`. -/
def splitNl (s : List Char) : List String := splitNlAux s []

/-- The lines produced by `bufio.Scanner` over a string: like splitting on
newlines, except that a trailing newline does not produce a final empty line
(carriage returns, which none of the handled data contains, are ignored). -/
def scanLines (s : String) : List String :=
  let l := splitNl s.data
  if l.getLast? == some "" then l.dropLast else l

/-- ASCII whitespace, as recognised by `strings.TrimSpace` (the model leaves
out non-ASCII Unicode space classes, which none of the handled data
contains). -/
def isSpaceChar (c : Char) : Bool :=
  c == ' ' || c == '\t' || c == '\n' || c == '\x0b' || c == '\x0c' || c == '\r'

/-- The skip test of the ignore-parsing loops in `NewWithOptions`:
`strings.TrimSpace(line) == "" || strings.HasPrefix(line, "#")`. -/
def skipLine (l : String) : Bool :=
  l.data.all isSpaceChar || l.data.head? == some '#'

/-- The scanner loop of `NewWithOptions`: parse every line of an ignore file
that is neither blank nor a comment, in order. -/
def parseIgnoreLines (content : String) : List Gitignore.Pattern :=
  (scanLines content).filterMap (fun l =>
    if skipLine l then none else some (Gitignore.ParsePattern l []))

/-- The `extraIgnores` literal of processor.go (a raw string beginning and
ending with a newline). -/
def extraIgnores : String :=
  String.intercalate "\n"
    [ ""
    , "# === Non-binary files that are typically committed but irrelevant"
    , "# === for LLMs assistance (e.g. logs, package lock files, etc.)"
    , ".sandworm"
    , ".sandwormignore"
    , ".sandworm*.txt"
    , ".git*"
    , "CHANGELOG*"
    , "*LICENSE*"
    , "*.lock"
    , "*-lock.json"
    , "*-lock.yaml"
    , "go.sum"
    , "*.log"
    , ""
    , "# === Binary files"
    , "# Image files"
    , "*.png"
    , "*.jpg"
    , "*.jpeg"
    , "*.gif"
    , "*.bmp"
    , "*.ico"
    , "*.webp"
    , ""
    , "# Document files"
    , "*.pdf"
    , "*.doc"
    , "*.docx"
    , "*.xls"
    , "*.xlsx"
    , "*.ppt"
    , "*.pptx"
    , ""
    , "# Archive files"
    , "*.zip"
    , "*.tar"
    , "*.gz"
    , "*.7z"
    , "*.rar"
    , ""
    , "# Executable and library files"
    , "*.exe"
    , "*.dll"
    , "*.so"
    , "*.dylib"
    , ""
    , "# Media files"
    , "*.mp3"
    , "*.mp4"
    , "*.avi"
    , "*.mov"
    , "*.wav"
    , ""
    , "# Font files"
    , "*.ttf"
    , "*.otf"
    , "*.woff"
    , "*.woff2"
    , ""
    , "# Generic binary files"
    , "*.bin"
    , "" ]

/-- The built-in patterns: `extraIgnores` run through the scanner loop. -/
def builtinPatterns : List Gitignore.Pattern := parseIgnoreLines extraIgnores

/-- `filepath.Base` (POSIX): the last element of the path after stripping
trailing separators; `"."` for the empty path, `"/"` for all-separator
paths. -/
def baseName (p : String) : String :=
  if p == "" then "."
  else
    let c := (p.data.reverse.dropWhile (· == '/')).reverse
    if c.isEmpty then "/"
    else String.mk ((c.reverse.takeWhile (· != '/')).reverse)

/-- `filepath.Join rootDir name` for the conventional ignore-file lookups.
(`Join` also cleans the result; both the lookup and the later read use the
same joined key, so cleaning is immaterial to the model.) -/
def joinPath (a b : String) : String := a ++ "/" ++ b

/-- The file contents visible to matcher construction: `read p` is the content
at path `p`, `none` when the file does not exist.  `os.Stat` succeeding is
modelled as `read` returning content (the model has no stat/read races). -/
structure IgnoreFS where
  read : String → Option String

/-- `ProcessorOptions`. -/
structure ProcessorOptions where
  PrintLineNumbers : Bool
  FollowSymlinks : Bool
deriving DecidableEq

/-- The `Processor` record as configured by `NewWithOptions`. -/
structure Proc where
  rootDir : String
  outputFile : String
  ignoreFile : String
  matcher : Gitignore.Matcher
  followSymlinks : Bool
  printLineNumbers : Bool

/-- `NewWithOptions`: assemble the ordered pattern list — built-ins (when no
explicit ignore file is given, or the explicit one is named `.gitignore` or
`.sandwormignore`), then the effective ignore file's rules (an explicit path,
or else `.sandwormignore` then `.gitignore` under the root, whichever
exists), then the literal output-file pattern — and fail exactly when the
effective ignore file cannot be read. -/
def NewWithOptions (fs : IgnoreFS) (rootDir outputFile ignoreFile : String)
    (opts : ProcessorOptions) : Except String Proc :=
  let addExtra := ignoreFile == "" || baseName ignoreFile == ".gitignore" ||
    baseName ignoreFile == ".sandwormignore"
  let patterns0 := if addExtra then builtinPatterns else []
  let ignoreFile' :=
    if ignoreFile == "" then
      if (fs.read (joinPath rootDir ".sandwormignore")).isSome then
        joinPath rootDir ".sandwormignore"
      else if (fs.read (joinPath rootDir ".gitignore")).isSome then
        joinPath rootDir ".gitignore"
      else ""
    else ignoreFile
  let withIgnore : Except String (List Gitignore.Pattern) :=
    if ignoreFile' != "" then
      match fs.read ignoreFile' with
      | none => .error "failed to read ignore file"
      | some data => .ok (patterns0 ++ parseIgnoreLines data)
    else .ok patterns0
  match withIgnore with
  | .error e => .error e
  | .ok ps =>
    .ok { rootDir := rootDir
          outputFile := outputFile
          ignoreFile := ignoreFile'
          matcher := ps ++ [Gitignore.ParsePattern outputFile []]
          followSymlinks := opts.FollowSymlinks
          printLineNumbers := opts.PrintLineNumbers }

/-- A directory entry as seen by the walker.  Directories are referred to by
identity (their canonical real path / device+inode, abstracted to a number),
so a symbolic link can point back to an ancestor.  A file's `content` is what
`os.ReadFile` of it yields at assembly time — `none` models a file that is
listed but can no longer be read. -/
inductive Ent where
  | file (content : Option String)
  | subdir (id : Nat)
  | linkFile (content : Option String)
  | linkDir (id : Nat)
  | linkBroken
deriving DecidableEq

/-- The directory tree under the processing root: `dirs[i]` holds the named
entries of the directory with identity `i`; `root` is the root directory's
identity (an identity outside `dirs` has no entries). -/
structure DirFS where
  dirs : List (List (String × Ent))
  root : Nat
deriving DecidableEq

/-- `processor.FileInfo`, with the path to read abstracted to the content that
reading it yields (`none`: the read fails). -/
structure FileInfo where
  RelativePath : String
  content : Option String
deriving DecidableEq

/-- Joining slash-normalized path segments (the value of
`filepath.ToSlash(filepath.Rel(root, osPathname))` for an entry reached
through these segments). -/
def joinSegs (segs : List String) : String := String.intercalate "/" segs

/-- The traversal driving `collectFiles`.  Modelled from the spec: the
directory walking itself is done by the external `godirwalk` library (not part
of this repository); per the spec, the walker visits each directory's entries
in a stable sorted order, descends into real subdirectories and — when
`follow` is set — into symlinked directories, and refuses to re-enter a
directory identity already on the current descent path, silently terminating
that branch.  The per-entry behaviour is translated from the `collectFiles`
callback in processor.go: real directories are not emitted; a symlink is
inspected (a broken one is skipped, one pointing at a directory is skipped
from the file list); everything else is emitted as a `FileInfo` unless the
matcher excludes its slash-normalized relative path.  `fuel` bounds the
recursion depth; `collectFiles` supplies more than the number of directory
identities, which is proved sufficient below. -/
def walkDir (fs : DirFS) (m : Gitignore.Matcher) (follow : Bool) :
    Nat → Nat → List String → List Nat → List FileInfo
  | 0, _, _, _ => []
  | fuel + 1, id, pre, onPath =>
    ((SortUtil.sortKey Prod.fst (fs.dirs.getD id [])).map (fun e =>
      let segs := pre ++ [e.1]
      match e.2 with
      | .file c =>
        if Gitignore.Matcher.Match m segs false then [] else [⟨joinSegs segs, c⟩]
      | .linkFile c =>
        if Gitignore.Matcher.Match m segs false then [] else [⟨joinSegs segs, c⟩]
      | .linkBroken => []
      | .subdir d =>
        if (id :: onPath).contains d then []
        else walkDir fs m follow fuel d segs (id :: onPath)
      | .linkDir d =>
        if follow then
          if (id :: onPath).contains d then []
          else walkDir fs m follow fuel d segs (id :: onPath)
        else [])).flatten

/-- `collectFiles`: walk the tree from the root and return the kept files.
An invalid root (an identity with no entry list) is the error case — per the
spec, an invalid root directory is a fatal configuration error. -/
def collectFiles (dfs : DirFS) (p : Proc) : Except String (List FileInfo) :=
  if dfs.root < dfs.dirs.length then
    .ok (walkDir dfs p.matcher p.followSymlinks (dfs.dirs.length + 1) dfs.root [] [])
  else .error "invalid root directory"

/-- The 80-column delimiter line of processor.go (a literal of 80 `=`
characters in the source). -/
def sepLine : String :=
  String.mk (List.replicate 80 '=')

/-- The floor of the base-10 logarithm, by repeated division (the first
argument is fuel, always supplied above the result). -/
def log10Fuel : Nat → Nat → Nat
  | 0, _ => 0
  | fuel + 1, n => if n < 10 then 0 else 1 + log10Fuel fuel (n / 10)

/-- `int(math.Log10(float64(n)))` for the positive line counts handled here:
the exact floor of the base-10 logarithm (the float64 computation truncates to
the same value at every count where it is exact, in particular at every count
arising in the claims). -/
def intLog10 (n : Nat) : Nat := log10Fuel n n

/-- The decimal digits of a number (`fmt`'s rendering of an `int`; the fuel
first argument is always supplied above the result). -/
def natDigits : Nat → Nat → List Char
  | 0, _ => []
  | fuel + 1, n =>
    let d := Char.ofNat (48 + n % 10)
    if n < 10 then [d] else natDigits fuel (n / 10) ++ [d]

/-- A natural number printed in decimal. -/
def natToStr (n : Nat) : String := String.mk (natDigits (n + 1) n)

/-- `fmt.Sprintf` of a number under a `%<width>d` verb: right-justified,
padded with spaces on the left to the given width. -/
def padNum (n width : Nat) : String :=
  let numStr := natToStr n
  String.mk (List.replicate (width - numStr.length) ' ') ++ numStr

/-- The rendering loop of `writeContentWithLineNumbers`: one output line
`"<padded-num>: <line>\n"` per input line, numbering from `i` (the Go loop
indexes from 0 and numbers with `i + 1`; here `i` is the line number
itself). -/
def numberLines (width : Nat) : Nat → List String → String
  | _, [] => ""
  | i, l :: rest => padNum i width ++ ": " ++ l ++ "\n" ++ numberLines width (i + 1) rest

/-- `writeContentWithLineNumbers`: split on newlines, right-justify each line
number to the width of the line count (`int(math.Log10(float64(numLines))) +
1`), emit `"<padded-num>: <line>\n"` per line. -/
def writeContentWithLineNumbers (content : String) : String :=
  let lines := splitNl content.data
  let numLines := lines.length
  if numLines == 0 then ""
  else
    let width := intLog10 numLines + 1
    numberLines width 1 lines

/-- `writeStructure`: the fixed headers around the tree rendering of the
relative paths. -/
def writeStructure (files : List FileInfo) : String :=
  "PROJECT STRUCTURE:\n==================\n\n" ++
    Filetree.Build (files.map (·.RelativePath)) "" ++
    "\n\nFILE CONTENTS:\n==============\n\n"

/-- `writeContents`: for each file, the delimiter/header block followed by its
content (optionally line-numbered) and a newline; a file whose content cannot
be read aborts the whole assembly. -/
def writeContents (files : List FileInfo) (printLineNumbers : Bool) : Except String String :=
  match files with
  | [] => .ok ""
  | f :: rest =>
    match f.content with
    | none => .error ("failed to read file " ++ f.RelativePath)
    | some c =>
      let body := if printLineNumbers then writeContentWithLineNumbers c else c
      let block := sepLine ++ "\n" ++ "FILE: " ++ f.RelativePath ++ "\n" ++ sepLine ++ "\n"
        ++ body ++ "\n"
      match writeContents rest printLineNumbers with
      | .error e => .error e
      | .ok restS => .ok (block ++ restS)

/-- The outcome of `Process`: the returned byte count (0 on error, else the
size of the written output), the returned error, whether the output file was
created (`os.Create` ran), and — on success — the flushed content of the
output file. -/
structure ProcResult where
  size : Nat
  errMsg : Option String
  created : Bool
  finalContent : Option String
deriving DecidableEq

/-- `Process`: collect the files (failing before the output file is created),
create the output file, write the structure section and the content blocks,
and return the written size.  A content-read failure aborts with an error
after the output file has been created; nothing removes it. -/
def Process (dfs : DirFS) (p : Proc) : ProcResult :=
  match collectFiles dfs p with
  | .error e => ⟨0, some ("failed to collect files: " ++ e), false, none⟩
  | .ok files =>
    let head := writeStructure files
    match writeContents files p.printLineNumbers with
    | .error e => ⟨0, some ("failed to write contents: " ++ e), true, none⟩
    | .ok body =>
      let out := head ++ body
      ⟨out.utf8ByteSize, none, true, some out⟩

end Processor

section SanityWalk

open Processor

/-- A filesystem whose root holds an ignore file and two logs. -/
private def sanityIgnFS : IgnoreFS :=
  ⟨fun p => if p == "root/.sandwormignore" then some "*.log\n!important.log" else none⟩

private def sanityDirFS : DirFS :=
  ⟨[[(".sandwormignore", .file (some "*.log\n!important.log")),
     ("important.log", .file (some "keep")),
     ("other.log", .file (some "drop"))]], 0⟩

private def cycleFS : DirFS :=
  ⟨[[("dirA", .subdir 1), ("f0.txt", .file (some "r"))],
    [("back", .linkDir 0), ("f1.txt", .file (some "a"))]], 0⟩

private def linkFS : DirFS :=
  ⟨[[("link.txt", .linkFile (some "x")), ("sub", .linkDir 1)],
    [("hidden.txt", .file (some "h"))]], 0⟩

end SanityWalk

namespace Gitignore

/-- The spec's wording of rule evaluation, as a reference definition for the
refinement proof: scan the rules in append order and track the outcome of the
last rule that matched (`none` when no rule matched). -/
def specLastDec (m : List Pattern) (path : List String) (isDir : Bool) :
    Option MatchResult :=
  m.foldl (fun acc p =>
    match p.MatchRes path isDir with
    | .NoMatch => acc
    | r => some r) none

/-- The spec's wording of the match predicate: the path is excluded exactly
when the last matching rule excludes it, defaulting to inclusion when no rule
matches. -/
def specLastMatch (m : List Pattern) (path : List String) (isDir : Bool) : Bool :=
  specLastDec m path isDir == some .Exclude

end Gitignore

namespace FilepathMatch

/-- Characters with no special meaning to `filepath.Match`. -/
def isLiteralChar (c : Char) : Bool :=
  !(c == '*' || c == '?' || c == '[' || c == '\\')

end FilepathMatch

namespace Gitignore

/-- A plain file name: glob-metacharacter-free, not a negation marker, no
trailing space, no slash — the conditions under which `ParsePattern` yields a
literal, unanchored single-segment pattern. -/
def LiteralName (s : String) : Prop :=
  s.data.all FilepathMatch.isLiteralChar = true ∧
  s.data.head? ≠ some '!' ∧
  s.data.getLast? ≠ some ' ' ∧
  s.data.contains '/' = false

end Gitignore

namespace Processor

/-- Reachability through real subdirectory edges only (no symbolic links):
the pairs (directory identity, relative segments) the walker can reach from a
start pair without ever passing through a symlink. -/
inductive RealChain (fs : DirFS) : Nat → List String → Nat → List String → Prop where
  | refl (id : Nat) (pre : List String) : RealChain fs id pre id pre
  | step {id : Nat} {pre : List String} {id' : Nat} {pre' : List String}
      {nm : String} {d : Nat} :
      RealChain fs id pre id' pre' → ((nm, Ent.subdir d) ∈ fs.dirs.getD id' []) →
      RealChain fs id pre d (pre' ++ [nm])

end Processor

/-- Root directory holding a regular file at the configured output's
root-relative location, for the C4 counterexample. -/
private def c4dfs : Processor.DirFS := ⟨[[("sandworm.txt", .file (some "out"))]], 0⟩

/-- Root directory holding a file whose name contains a glob metacharacter,
for the C9 counterexample. -/
private def c9dfs : Processor.DirFS := ⟨[[("a[b.txt", .file (some "x"))]], 0⟩

namespace Processor

/-- The number of directory identities the walker may still enter while the
current descent path is `onPath`. -/
def freeDirs (fs : DirFS) (onPath : List Nat) : Nat :=
  ((List.range fs.dirs.length).filter (fun j => decide (j ∉ onPath))).length

end Processor

namespace Filetree

/-- One child's rendered block, following the spec's wording: connector from
last-ness, `/` suffix and recursion for directory children. -/
def specChildBlock (fuel : Nat) (es : List (String × Node)) (pref : String)
    (isLast isDir : Bool) (nm : String) : List String :=
  let connector := if isLast then "└── " else "├── "
  if isDir then
    (pref ++ connector ++ (nm ++ "/")) ::
      buildTree fuel (childOf es nm) (pref ++ (if isLast then "    " else "│   "))
  else [pref ++ connector ++ nm]

/-- One level of the rendering, following the spec's wording: sorted
directory children first, then sorted file children; the last child of the
combined sequence gets `└── `, every other child `├── `. -/
def specLevel (fuel : Nat) (n : Node) (pref : String) : List String :=
  let tagged := (dirNames n.entries).map (fun nm => (nm, true))
    ++ (fileNames n.entries).map (fun nm => (nm, false))
  match tagged.getLast? with
  | none => []
  | some lastE =>
    (tagged.dropLast.map
      (fun e => specChildBlock fuel n.entries pref false e.2 e.1)).flatten
      ++ specChildBlock fuel n.entries pref true lastE.2 lastE.1

/-- Rendering a tagged child list with an explicit last-element split. -/
def lastSplitRender (G : Bool → Bool → String → List String) :
    List (String × Bool) → List String
  | [] => []
  | [e] => G true e.2 e.1
  | e :: e' :: rest => G false e.2 e.1 ++ lastSplitRender G (e' :: rest)

/-- Equality of Go-map contents, up to the arbitrary iteration order of the
underlying hash map: unique keys, the same key set, and pointwise equivalent
children. -/
inductive NodeEquiv : Node → Node → Prop where
  | intro {es₁ es₂ : List (String × Node)} :
      (es₁.map Prod.fst).Nodup →
      (es₁.map Prod.fst).Perm (es₂.map Prod.fst) →
      (∀ k n₁ n₂, es₁.lookup k = some n₁ → es₂.lookup k = some n₂ → NodeEquiv n₁ n₂) →
      NodeEquiv (.mk es₁) (.mk es₂)

end Filetree

namespace Processor

/-- Two presentations of the same directory tree, as two runs may see it: the
same root and identity space, each directory's entries equal up to the order
in which the operating system lists them. -/
def DirEquiv (fs₁ fs₂ : DirFS) : Prop :=
  fs₁.root = fs₂.root ∧ fs₁.dirs.length = fs₂.dirs.length ∧
    ∀ id : Nat, (fs₁.dirs.getD id []).Perm (fs₂.dirs.getD id [])

/-- Unique entry names in every directory, as on a real filesystem. -/
def WellNamed (fs : DirFS) : Prop :=
  ∀ id : Nat, ((fs.dirs.getD id []).map Prod.fst).Nodup

end Processor

/-- Two presentations of the same one-directory tree, entries swapped. -/
private def c8fsA : Processor.DirFS :=
  ⟨[[("b.txt", .file (some "B")), ("a.txt", .file (some "A"))]], 0⟩

private def c8fsB : Processor.DirFS :=
  ⟨[[("a.txt", .file (some "A")), ("b.txt", .file (some "B"))]], 0⟩

/-- Two iteration orders of the same Go map. -/
private def c8tA : Filetree.Node := .mk [("a", .mk []), ("b", .mk [])]

private def c8tB : Filetree.Node := .mk [("b", .mk []), ("a", .mk [])]

-- Sanity checks of the glob matcher against Go behaviour.
example : FilepathMatch.fpMatch "*.log" "important.log" = some true := by decide

example : FilepathMatch.fpMatch "*.log" "important.lo" = some false := by decide

example : FilepathMatch.fpMatch "a*c" "abc" = some true := by decide

example : FilepathMatch.fpMatch "a*c" "a/c" = some false := by decide

example : FilepathMatch.fpMatch "a[b.txt" "a[b.txt" = none := by decide

example : FilepathMatch.fpMatch "[a-c]x" "bx" = some true := by decide

example : FilepathMatch.fpMatch "[a-c]x" "dx" = some false := by decide

example : FilepathMatch.fpMatch "?x" "ax" = some true := by decide

example : FilepathMatch.fpMatch "" "" = some true := by decide

example : FilepathMatch.fpMatch "" "a" = some false := by decide

example : FilepathMatch.fpMatch ".sandworm*.txt" ".sandworm-123456.txt" = some true := by decide

example : FilepathMatch.fpMatch "*LICENSE*" "LICENSE" = some true := by decide

-- Sanity checks of the gitignore engine against git/go-git behaviour.
example :
    (Gitignore.ParsePattern "*.log" []) =
      ⟨[], ["*.log"], false, false, false⟩ := by decide

example :
    (Gitignore.ParsePattern "!important.log" []) =
      ⟨[], ["important.log"], true, false, false⟩ := by decide

example :
    (Gitignore.ParsePattern "/tmp/" []) =
      ⟨[], ["", "tmp"], false, true, true⟩ := by decide

example :
    (Gitignore.ParsePattern "*.log" []).MatchRes ["important.log"] false =
      .Exclude := by decide

example :
    (Gitignore.ParsePattern "node_modules" []).MatchRes ["a", "node_modules", "b.js"] false =
      .Exclude := by decide

example :
    (Gitignore.ParsePattern "/tmp/" []).MatchRes ["tmp", "ignore.txt"] false =
      .Exclude := by decide

example :
    (Gitignore.ParsePattern "/tmp/" []).MatchRes ["tmpx", "ignore.txt"] false =
      .NoMatch := by decide

example :
    Gitignore.Matcher.Match
      [Gitignore.ParsePattern "*.log" [], Gitignore.ParsePattern "!important.log" []]
      ["important.log"] false = false := by decide

example :
    Gitignore.Matcher.Match
      [Gitignore.ParsePattern "*.log" [], Gitignore.ParsePattern "!important.log" []]
      ["other.log"] false = true := by decide

namespace SortUtil

theorem lexLe_total (a b : List Char) : lexLe a b = true ∨ lexLe b a = true := by
  induction a generalizing b with
  | nil => left; rfl
  | cons x xs ih =>
    cases b with
    | nil => right; rfl
    | cons y ys =>
      simp only [lexLe]
      rcases Nat.lt_trichotomy x.toNat y.toNat with h | h | h
      · left; simp [h]
      · have hxy : ¬ x.toNat < y.toNat := by omega
        have hyx : ¬ y.toNat < x.toNat := by omega
        rcases ih ys with h' | h' <;> simp [hxy, hyx, h']
      · right; simp [h, show ¬ x.toNat < y.toNat by omega]

theorem lexLe_antisymm {a b : List Char} (hab : lexLe a b = true)
    (hba : lexLe b a = true) : a = b := by
  induction a generalizing b with
  | nil =>
    cases b with
    | nil => rfl
    | cons y ys => simp [lexLe] at hba
  | cons x xs ih =>
    cases b with
    | nil => simp [lexLe] at hab
    | cons y ys =>
      simp only [lexLe] at hab hba
      rcases Nat.lt_trichotomy x.toNat y.toNat with h | h | h
      · simp [h, show ¬ y.toNat < x.toNat by omega] at hba
      · have hxy : ¬ x.toNat < y.toNat := by omega
        have hyx : ¬ y.toNat < x.toNat := by omega
        simp only [hxy, hyx, if_false] at hab hba
        have hxy' : x = y := Char.eq_of_val_eq (UInt32.ext h)
        rw [hxy', ih hab hba]
      · simp [h, show ¬ x.toNat < y.toNat by omega] at hab

theorem lexLe_trans {a b c : List Char} (hab : lexLe a b = true)
    (hbc : lexLe b c = true) : lexLe a c = true := by
  induction a generalizing b c with
  | nil => rfl
  | cons x xs ih =>
    cases b with
    | nil => simp [lexLe] at hab
    | cons y ys =>
      cases c with
      | nil => simp [lexLe] at hbc
      | cons z zs =>
        simp only [lexLe] at hab hbc ⊢
        by_cases h1 : x.toNat < y.toNat
        · simp only [h1, if_true] at hab
          by_cases h2 : y.toNat < z.toNat
          · simp [show x.toNat < z.toNat by omega]
          · by_cases h2' : z.toNat < y.toNat
            · simp [h2, h2'] at hbc
            · simp [show x.toNat < z.toNat by omega]
        · by_cases h1' : y.toNat < x.toNat
          · simp [h1, h1'] at hab
          · simp only [h1, h1', if_false] at hab
            by_cases h2 : y.toNat < z.toNat
            · simp [show x.toNat < z.toNat by omega]
            · by_cases h2' : z.toNat < y.toNat
              · simp [h2, h2'] at hbc
              · simp only [h2, h2', if_false] at hbc
                simp only [show ¬ x.toNat < z.toNat by omega,
                  show ¬ z.toNat < x.toNat by omega, if_false]
                exact ih hab hbc

theorem strLe_total (a b : String) : strLe a b = true ∨ strLe b a = true :=
  lexLe_total a.data b.data

theorem strLe_antisymm {a b : String} (hab : strLe a b = true)
    (hba : strLe b a = true) : a = b := by
  cases a; cases b
  exact congrArg String.mk (lexLe_antisymm hab hba)

theorem insertKey_perm {β : Type} (key : β → String) (a : β) (l : List β) :
    (insertKey key a l).Perm (a :: l) := by
  induction l with
  | nil => simp [insertKey]
  | cons b t ih =>
    simp only [insertKey]
    by_cases h : strLe (key a) (key b) = true
    · simp [h]
    · simp only [h, if_false]
      exact ((ih.cons b).trans (List.Perm.swap a b t))

theorem sortKey_perm {β : Type} (key : β → String) (l : List β) :
    (sortKey key l).Perm l := by
  induction l with
  | nil => simp [sortKey]
  | cons a t ih => exact (insertKey_perm key a (sortKey key t)).trans (ih.cons a)

theorem insertKey_sorted {β : Type} (key : β → String) (a : β) {l : List β}
    (h : KeySorted key l) : KeySorted key (insertKey key a l) := by
  induction l with
  | nil => simp [insertKey, KeySorted]
  | cons b t ih =>
    simp only [insertKey]
    rcases List.pairwise_cons.mp h with ⟨hb, ht⟩
    by_cases hab : strLe (key a) (key b) = true
    · simp only [hab, if_true]
      refine List.pairwise_cons.mpr ⟨?_, h⟩
      intro y hy
      rcases hy with _ | hy
      · exact hab
      · exact lexLe_trans hab (hb _ (by assumption))
    · simp only [hab, if_false]
      refine List.pairwise_cons.mpr ⟨?_, ih ht⟩
      intro y hy
      have hperm := insertKey_perm key a t
      have hy' : y ∈ a :: t := hperm.mem_iff.mp hy
      rcases hy' with _ | hy'
      · rcases strLe_total (key a) (key b) with h' | h'
        · exact absurd h' hab
        · exact h'
      · exact hb _ (by assumption)

theorem sortKey_sorted {β : Type} (key : β → String) (l : List β) :
    KeySorted key (sortKey key l) := by
  induction l with
  | nil => simp [sortKey, KeySorted]
  | cons a t ih => exact insertKey_sorted key a ih

/-- Two sorted lists that are permutations of each other and have no duplicate
keys are equal: the sorted scan of a directory is independent of the order in
which the operating system happens to present its (uniquely named) entries. -/
theorem sorted_perm_nodupkeys_eq {β : Type} (key : β → String) :
    ∀ {l₁ l₂ : List β}, KeySorted key l₁ → KeySorted key l₂ → l₁.Perm l₂ →
      (l₁.map key).Nodup → l₁ = l₂ := by
  intro l₁
  induction l₁ with
  | nil =>
    intro l₂ _ _ hperm _
    exact (List.Perm.nil_eq hperm).symm ▸ rfl
  | cons a t₁ ih =>
    intro l₂ h₁ h₂ hperm hnd
    cases l₂ with
    | nil => exact absurd hperm.symm (by simp)
    | cons b t₂ =>
      rcases List.pairwise_cons.mp h₁ with ⟨ha, ht₁⟩
      rcases List.pairwise_cons.mp h₂ with ⟨hb, ht₂⟩
      have hab : a = b := by
        have hain : a ∈ b :: t₂ := hperm.mem_iff.mp (List.mem_cons_self a t₁)
        have hbin : b ∈ a :: t₁ := hperm.symm.mem_iff.mp (List.mem_cons_self b t₂)
        rcases List.mem_cons.mp hain with h | h
        · exact h
        rcases List.mem_cons.mp hbin with h' | h'
        · exact h'.symm
        have h1 : strLe (key a) (key b) = true := ha _ h'
        have h2 : strLe (key b) (key a) = true := hb _ h
        have hkey : key a = key b := strLe_antisymm h1 h2
        exfalso
        rcases List.nodup_cons.mp hnd with ⟨hnotin, _⟩
        exact hnotin (hkey ▸ List.mem_map_of_mem key h')
      subst hab
      have htperm := hperm.cons_inv
      rcases List.nodup_cons.mp hnd with ⟨_, hnd'⟩
      rw [ih ht₁ ht₂ htperm hnd']

end SortUtil

-- Sanity checks of the tree rendering against filetree_test.go expectations.
example : Filetree.Build ["b/x.txt", "a.txt"] "" =
    "/\n├── b/\n│   └── x.txt\n└── a.txt" := by decide

example : Filetree.Build [] "" = "/" := by decide

example : Filetree.Build [] "root" = "/root" := by decide

example : Filetree.Build ["a.txt"] "" = "/\n└── a.txt" := by decide

-- Sanity checks of the processor model.
example : Processor.builtinPatterns.length = 44 := by decide

example : (Processor.scanLines "a\nb\n") = ["a", "b"] := by decide

example : (Processor.scanLines "") = [] := by decide

example : Processor.baseName "/x/y/.gitignore" = ".gitignore" := by decide

example :
    Processor.writeContentWithLineNumbers "Line 1\nLine 2\nLine 3" =
      "1: Line 1\n2: Line 2\n3: Line 3\n" := by decide

section SanityWalk

open Processor

example :
    (NewWithOptions sanityIgnFS "root" "sandworm.txt" "" ⟨false, false⟩).toOption.map
        (fun p => (collectFiles sanityDirFS p).toOption) =
      some (some [⟨"important.log", some "keep"⟩]) := by decide

example :
    walkDir cycleFS [] true 3 0 [] [] =
      [⟨"dirA/f1.txt", some "a"⟩, ⟨"f0.txt", some "r"⟩] := by decide

-- With followSymlinks=false the symlinked dir contributes nothing, but the
-- symlink to a file IS emitted.
example : walkDir linkFS [] false 3 0 [] [] = [⟨"link.txt", some "x"⟩] := by decide

example :
    walkDir linkFS [] true 3 0 [] [] =
      [⟨"link.txt", some "x"⟩, ⟨"sub/hidden.txt", some "h"⟩] := by decide

end SanityWalk

namespace Gitignore

theorem firstDec_append (xs ys : List Pattern) (path : List String) (isDir : Bool) :
    firstDec (xs ++ ys) path isDir =
      match firstDec xs path isDir with
      | some r => some r
      | none => firstDec ys path isDir := by
  induction xs with
  | nil => simp [firstDec]
  | cons p t ih =>
    simp only [List.cons_append, firstDec]
    cases p.MatchRes path isDir <;> simp [ih]

theorem specLastDec_eq_firstDec_reverse (m : List Pattern) (path : List String)
    (isDir : Bool) :
    specLastDec m path isDir = firstDec m.reverse path isDir := by
  suffices h : ∀ (l : List Pattern) (acc : Option MatchResult),
      l.foldl (fun acc p =>
        match p.MatchRes path isDir with
        | .NoMatch => acc
        | r => some r) acc =
      match firstDec l.reverse path isDir with
      | some r => some r
      | none => acc by
    unfold specLastDec
    rw [h m none]
    cases firstDec m.reverse path isDir <;> rfl
  intro l
  induction l with
  | nil => intro acc; simp [firstDec]
  | cons p t ih =>
    intro acc
    simp only [List.foldl_cons, List.reverse_cons, ih, firstDec_append]
    cases hm : p.MatchRes path isDir <;>
      cases hf : firstDec t.reverse path isDir <;>
        simp [firstDec, hm]

end Gitignore

/-- **C1.**  For every ordered rule list and every candidate relative path,
pattern matching applies the rules in append order with the last matching
rule winning (the matcher's reverse scan equals the spec's last-match-wins
evaluation); in particular, with the ignore rules `*.log`, `!important.log`
appended after the built-in rules (and the output-file rule appended last),
the path `important.log` is not excluded and survives collection while
`other.log` is excluded. -/
theorem c1_append_order_last_match_wins :
    (∀ (m : Gitignore.Matcher) (path : List String) (isDir : Bool),
      Gitignore.Matcher.Match m path isDir = Gitignore.specLastMatch m path isDir) ∧
    (Processor.NewWithOptions sanityIgnFS "root" "sandworm.txt" "" ⟨false, false⟩).toOption.map
        (fun p =>
          (Gitignore.Matcher.Match p.matcher ["important.log"] false,
           Gitignore.Matcher.Match p.matcher ["other.log"] false,
           (Processor.collectFiles sanityDirFS p).toOption)) =
      some (false, true, some [⟨"important.log", some "keep"⟩]) := by
  constructor
  · intro m path isDir
    simp [Gitignore.Matcher.Match, Gitignore.specLastMatch,
      Gitignore.specLastDec_eq_firstDec_reverse]
  · decide

/-- **C2.**  For every file whose content consists of exactly 3 lines (its
newline split has exactly three fields), assembling with
`showLineNumbers = true` emits exactly 3 numbered lines for that file, each
formatted `"<n>: <content>\n"`, and the line numbers are rendered at the
common width `int(log10(3)) + 1 = 1`, the decimal digit width of the total
line count. -/
theorem c2_line_numbering_three_lines (content l1 l2 l3 : String)
    (h : Processor.splitNl content.data = [l1, l2, l3]) :
    Processor.writeContentWithLineNumbers content =
      "1: " ++ l1 ++ "\n" ++ ("2: " ++ l2 ++ "\n" ++ ("3: " ++ l3 ++ "\n" ++ "")) ∧
    Processor.intLog10 3 + 1 = (Processor.natToStr 3).data.length := by
  refine ⟨?_, by decide⟩
  simp only [Processor.writeContentWithLineNumbers, h]
  rfl

/-- Witness for C2 at the concrete content `"a\nb\nc"`. -/
theorem c2_line_numbering_three_lines_witness :
    Processor.writeContentWithLineNumbers "a\nb\nc" =
      "1: " ++ "a" ++ "\n" ++ ("2: " ++ "b" ++ "\n" ++ ("3: " ++ "c" ++ "\n" ++ "")) ∧
    Processor.intLog10 3 + 1 = (Processor.natToStr 3).data.length :=
  c2_line_numbering_three_lines "a\nb\nc" "a" "b" "c" (by decide)

theorem Processor.joinPath_ne_empty (a b : String) : Processor.joinPath a b ≠ "" := by
  intro h
  cases a with
  | mk la =>
    cases b with
    | mk lb =>
      have h' : la ++ ['/'] ++ lb = ([] : List Char) := congrArg String.data h
      simp at h'

/-- **C6.**  Matcher construction fails with an error exactly when the
effective ignore file cannot be read, which — with stat and read agreeing, as
they do absent filesystem races — happens exactly when a caller-supplied
explicit ignore-file path is unreadable; and when no explicit ignore file is
supplied and neither `.sandwormignore` nor `.gitignore` exists under the
root, construction succeeds with the built-in rules (followed only by the
output-file rule). -/
theorem c6_construction_failure_exactly_unreadable_explicit
    (fs : Processor.IgnoreFS) (rootDir outputFile ignoreFile : String)
    (opts : Processor.ProcessorOptions) :
    ((∃ e, Processor.NewWithOptions fs rootDir outputFile ignoreFile opts = .error e) ↔
      (ignoreFile ≠ "" ∧ fs.read ignoreFile = none)) ∧
    (ignoreFile = "" →
      fs.read (Processor.joinPath rootDir ".sandwormignore") = none →
      fs.read (Processor.joinPath rootDir ".gitignore") = none →
      Processor.NewWithOptions fs rootDir outputFile ignoreFile opts =
        .ok { rootDir := rootDir
              outputFile := outputFile
              ignoreFile := ""
              matcher := Processor.builtinPatterns ++ [Gitignore.ParsePattern outputFile []]
              followSymlinks := opts.FollowSymlinks
              printLineNumbers := opts.PrintLineNumbers }) := by
  constructor
  · by_cases hif : ignoreFile = ""
    · subst hif
      by_cases hs : (fs.read (Processor.joinPath rootDir ".sandwormignore")).isSome
      · rcases Option.isSome_iff_exists.mp hs with ⟨v, hv⟩
        simp [Processor.NewWithOptions, hv, Processor.joinPath_ne_empty]
      · by_cases hg : (fs.read (Processor.joinPath rootDir ".gitignore")).isSome
        · rcases Option.isSome_iff_exists.mp hg with ⟨v, hv⟩
          simp [Processor.NewWithOptions, hv, Processor.joinPath_ne_empty,
            Option.not_isSome_iff_eq_none.mp hs]
        · simp [Processor.NewWithOptions,
            Option.not_isSome_iff_eq_none.mp hs, Option.not_isSome_iff_eq_none.mp hg]
    · cases hr : fs.read ignoreFile with
      | none => simp [Processor.NewWithOptions, hif, hr]
      | some v => simp [Processor.NewWithOptions, hif, hr]
  · intro hif hs hg
    subst hif
    simp [Processor.NewWithOptions, hs, hg]

/-- Witness for C6: with no files at all and no explicit ignore file,
construction succeeds with the built-ins plus the output rule. -/
theorem c6_construction_failure_exactly_unreadable_explicit_witness :
    Processor.NewWithOptions ⟨fun _ => none⟩ "root" "out.txt" "" ⟨false, false⟩ =
      .ok { rootDir := "root"
            outputFile := "out.txt"
            ignoreFile := ""
            matcher := Processor.builtinPatterns ++ [Gitignore.ParsePattern "out.txt" []]
            followSymlinks := false
            printLineNumbers := false } :=
  (c6_construction_failure_exactly_unreadable_explicit
    ⟨fun _ => none⟩ "root" "out.txt" "" ⟨false, false⟩).2 rfl rfl rfl

namespace Processor

theorem writeContents_error_of_unreadable (printLineNumbers : Bool) :
    ∀ (files : List FileInfo), (∃ f ∈ files, f.content = none) →
      ∃ e, writeContents files printLineNumbers = .error e := by
  intro files h
  induction files with
  | nil => simp at h
  | cons f rest ih =>
    rcases h with ⟨g, hg, hgc⟩
    rcases List.mem_cons.mp hg with hgf | hgr
    · refine ⟨"failed to read file " ++ f.RelativePath, ?_⟩
      have hfc : f.content = none := hgf ▸ hgc
      simp [writeContents, hfc]
    · cases hc : f.content with
      | none => exact ⟨"failed to read file " ++ f.RelativePath, by simp [writeContents, hc]⟩
      | some c =>
        rcases ih ⟨g, hgr, hgc⟩ with ⟨e, he⟩
        exact ⟨e, by simp [writeContents, hc, he]⟩

end Processor

/-- **C10.**  On the error paths of `Process`: if file collection fails (the
root directory is invalid), `Process` returns zero and an error and the
output file is never created; if reading a selected file fails during content
assembly, `Process` returns zero and an error but the output file created at
the start of assembly remains (nothing removes it: `created` stays true and
no removal exists on the path). -/
theorem c10_process_error_paths :
    (∀ (dfs : Processor.DirFS) (p : Processor.Proc),
      ¬ dfs.root < dfs.dirs.length →
      Processor.Process dfs p =
        ⟨0, some ("failed to collect files: " ++ "invalid root directory"), false, none⟩) ∧
    (∀ (dfs : Processor.DirFS) (p : Processor.Proc) (files : List Processor.FileInfo),
      Processor.collectFiles dfs p = .ok files →
      (∃ f ∈ files, f.content = none) →
      ∃ e, Processor.Process dfs p = ⟨0, some e, true, none⟩) := by
  constructor
  · intro dfs p h
    simp [Processor.Process, Processor.collectFiles, h]
  · intro dfs p files hok h
    rcases Processor.writeContents_error_of_unreadable p.printLineNumbers files h with ⟨e, he⟩
    exact ⟨"failed to write contents: " ++ e, by simp [Processor.Process, hok, he]⟩

/-- Witness for C10: an invalid root gives an error with no output file; a
root whose single file is unreadable gives an error after creation. -/
theorem c10_process_error_paths_witness :
    Processor.Process ⟨[], 1⟩ ⟨"r", "o", "", [], false, false⟩ =
      ⟨0, some ("failed to collect files: " ++ "invalid root directory"), false, none⟩ ∧
    ∃ e, Processor.Process ⟨[[("f", .file none)]], 0⟩ ⟨"r", "o", "", [], false, false⟩ =
      ⟨0, some e, true, none⟩ :=
  ⟨c10_process_error_paths.1 ⟨[], 1⟩ ⟨"r", "o", "", [], false, false⟩ (by decide),
   c10_process_error_paths.2 ⟨[[("f", .file none)]], 0⟩ ⟨"r", "o", "", [], false, false⟩
     [⟨"f", none⟩] rfl ⟨⟨"f", none⟩, by decide, rfl⟩⟩

namespace FilepathMatch

theorem literal_beq_false {c : Char} (h : isLiteralChar c = true) :
    (c == '*') = false ∧ (c == '?') = false ∧ (c == '[') = false ∧ (c == '\\') = false := by
  simp only [isLiteralChar, Bool.not_eq_true', Bool.or_eq_false_iff] at h
  exact ⟨h.1.1.1, h.1.1.2, h.1.2, h.2⟩

theorem dropStars_literal {l : List Char} (h : l.all isLiteralChar = true) :
    dropStars l = l := by
  cases l with
  | nil => rfl
  | cons c t =>
    simp only [List.all_cons, Bool.and_eq_true] at h
    simp [dropStars, (literal_beq_false h.1).1]

theorem chunkLen_literal : ∀ {l : List Char}, l.all isLiteralChar = true →
    chunkLen false l = l.length := by
  intro l
  induction l with
  | nil => intro _; rfl
  | cons c t ih =>
    intro h
    simp only [List.all_cons, Bool.and_eq_true] at h
    obtain ⟨hb1, _, hb3, hb4⟩ := literal_beq_false h.1
    have e1 : chunkLen false (c :: t) = 1 + chunkLen false t := by
      by_cases hcr : (c == ']') = true
      · rw [chunkLen.eq_def]
        simp [hb4, hb3, hcr]
      · simp only [Bool.not_eq_true] at hcr
        rw [chunkLen.eq_def]
        simp [hb4, hb3, hcr, hb1]
    rw [e1, ih h.2, List.length_cons]
    omega

theorem scanChunk_literal {l : List Char} (h : l.all isLiteralChar = true) :
    scanChunk l = (false, l, []) := by
  have hd : dropStars l = l := dropStars_literal h
  have hc : chunkLen false l = l.length := chunkLen_literal h
  have hstar : (l.head? == some '*') = false := by
    cases l with
    | nil => rfl
    | cons c t =>
      simp only [List.all_cons, Bool.and_eq_true] at h
      simpa [List.head?] using (literal_beq_false h.1).1
  simp [scanChunk, hd, hc, hstar]

theorem matchChunk_failed_literal :
    ∀ {chunk : List Char}, chunk.all isLiteralChar = true →
    ∀ (s : List Char) (fuel : Nat), chunk.length < fuel →
      matchChunk fuel chunk s true = .fail := by
  intro chunk
  induction chunk with
  | nil =>
    intro _ s fuel hf
    cases fuel with
    | zero => omega
    | succ f => rfl
  | cons c t ih =>
    intro h s fuel hf
    simp only [List.all_cons, Bool.and_eq_true] at h
    obtain ⟨_, hb2, hb3, hb4⟩ := literal_beq_false h.1
    cases fuel with
    | zero => omega
    | succ f =>
      simp only [matchChunk, hb2, hb3, hb4, Bool.true_or, if_true, if_false,
        Bool.false_eq_true, List.length_cons] at *
      exact ih h.2 s f (by omega)

theorem matchChunk_ok_literal :
    ∀ {chunk : List Char}, chunk.all isLiteralChar = true →
    ∀ (s : List Char) (fuel : Nat), chunk.length < fuel →
      matchChunk fuel chunk s false =
        if chunk.isPrefixOf s then .ok (s.drop chunk.length) else .fail := by
  intro chunk
  induction chunk with
  | nil =>
    intro _ s fuel hf
    cases fuel with
    | zero => omega
    | succ f => simp [matchChunk, List.isPrefixOf]
  | cons c t ih =>
    intro h s fuel hf
    simp only [List.all_cons, Bool.and_eq_true] at h
    obtain ⟨_, hb2, hb3, hb4⟩ := literal_beq_false h.1
    cases fuel with
    | zero => omega
    | succ f =>
      cases s with
      | nil =>
        have hrec := matchChunk_failed_literal h.2 [] f
          (by simp only [List.length_cons] at hf; omega)
        simp [matchChunk, hb2, hb3, hb4, hrec, List.isPrefixOf]
      | cons x xs =>
        by_cases hcx : c = x
        · subst hcx
          have hne : (c != c) = false := by simp
          have hrec := ih h.2 xs f (by simp only [List.length_cons] at hf; omega)
          simp [matchChunk, hb2, hb3, hb4, hne, hrec, List.isPrefixOf]
        · have hne : (c != x) = true := by simp [hcx]
          have hrec := matchChunk_failed_literal h.2 xs f
            (by simp only [List.length_cons] at hf; omega)
          have hpf : (c == x) = false := by simp [hcx]
          simp [matchChunk, hb2, hb3, hb4, hne, hrec, List.isPrefixOf, hpf]

theorem prefix_drop_nil_eq {l s : List Char} (hp : l.isPrefixOf s = true)
    (hd : s.drop l.length = []) : l = s := by
  rcases List.isPrefixOf_iff_prefix.mp hp with ⟨r, hr⟩
  subst hr
  simp only [List.drop_left] at hd
  simp [hd]

theorem fpMatch_literal_aux (pat name : String) (h : pat.data.all isLiteralChar = true) :
    fpMatch pat name = some (pat.data == name.data) := by
  rcases hp : pat.data with _ | ⟨c, t⟩
  · unfold fpMatch
    rw [hp]
    cases hn : name.data <;> simp [matchLoop]
  · unfold fpMatch
    rw [hp]
    rw [hp] at h
    have hsc := scanChunk_literal h
    have hmc := matchChunk_ok_literal h name.data (t.length + 1 + 1)
      (by simp only [List.length_cons]; omega)
    by_cases hpre : (c :: t).isPrefixOf name.data = true
    · rw [if_pos hpre] at hmc
      by_cases hdrop : (List.drop (c :: t).length name.data).isEmpty = true
      · have heq : (c :: t) = name.data :=
          prefix_drop_nil_eq hpre (List.isEmpty_iff.mp hdrop)
        simp only [matchLoop, hsc, List.length_cons]
        rw [show ((t.length + 1 : Nat) + 1) = t.length + 1 + 1 from rfl, hmc]
        simp only [List.length_cons] at hdrop
        simp [hdrop, matchLoop, ← heq]
      · have hneq : ((c :: t : List Char) == name.data) = false := by
          apply beq_eq_false_iff_ne.mpr
          intro he
          apply hdrop
          rw [← he]
          simp
        simp only [matchLoop, hsc, List.length_cons]
        rw [show ((t.length + 1 : Nat) + 1) = t.length + 1 + 1 from rfl, hmc]
        simp only [List.length_cons] at hdrop
        simp only [Bool.not_eq_true] at hdrop
        simp [hdrop, hneq, checkRest]
    · have hpre' : (c :: t).isPrefixOf name.data = false := by
        simp only [Bool.not_eq_true] at hpre
        exact hpre
      rw [if_neg (by simp [hpre'])] at hmc
      have hneq : ((c :: t : List Char) == name.data) = false := by
        apply beq_eq_false_iff_ne.mpr
        intro he
        rw [he] at hpre'
        have : name.data.isPrefixOf name.data = true :=
          List.isPrefixOf_iff_prefix.mpr ⟨[], by simp⟩
        rw [this] at hpre'
        exact absurd hpre' (by simp)
      simp only [matchLoop, hsc, List.length_cons]
      rw [show ((t.length + 1 : Nat) + 1) = t.length + 1 + 1 from rfl, hmc]
      simp [hneq, checkRest]

/-- `filepath.Match` of a metacharacter-free pattern is equality. -/
theorem fpMatch_literal (pat name : String) (h : pat.data.all isLiteralChar = true) :
    fpMatch pat name = some (pat == name) := by
  rw [fpMatch_literal_aux pat name h]
  by_cases he : pat = name
  · subst he; simp
  · have h1 : (pat.data == name.data) = false :=
      beq_eq_false_iff_ne.mpr (fun hd => he (String.ext hd))
    have h2 : (pat == name) = false := beq_eq_false_iff_ne.mpr he
    rw [h1, h2]

end FilepathMatch

namespace Gitignore

theorem dropWhile_of_head {p : Char → Bool} {l : List Char}
    (h : ∀ x, l.head? = some x → p x = false) : l.dropWhile p = l := by
  cases l with
  | nil => rfl
  | cons c t => simp [List.dropWhile_cons, h c rfl]

theorem trimTrailingSpaces_id {l : List Char} (h : l.getLast? ≠ some ' ') :
    trimTrailingSpaces l = l := by
  unfold trimTrailingSpaces
  rw [dropWhile_of_head, List.reverse_reverse]
  intro x hx
  rw [List.head?_reverse] at hx
  have : x ≠ ' ' := fun he => h (he ▸ hx)
  simpa using this

theorem splitSlashAux_no_slash :
    ∀ (l acc : List Char), l.contains '/' = false →
      splitSlashAux l acc = [String.mk (acc.reverse ++ l)] := by
  intro l
  induction l with
  | nil => intro acc _; simp [splitSlashAux]
  | cons c t ih =>
    intro acc hc
    simp only [List.contains_cons, Bool.or_eq_false_iff] at hc
    have h1 : (c == '/') = false := by simpa [BEq.comm] using hc.1
    rw [splitSlashAux, if_neg (by simp [h1])]
    rw [ih (c :: acc) hc.2]
    simp

theorem splitSlash_no_slash {l : List Char} (h : l.contains '/' = false) :
    splitSlash l = [String.mk l] := by
  simpa using splitSlashAux_no_slash l [] h

/-- A literal name parses to the literal, unanchored, non-negated,
non-directory pattern consisting of itself. -/
theorem ParsePattern_literal {s : String} (h : LiteralName s) :
    ParsePattern s [] = ⟨[], [s], false, false, false⟩ := by
  obtain ⟨hlit, hbang, hspace, hslash⟩ := h
  have h1 : (s.data.head? == some '!') = false := by
    cases hh : s.data.head? with
    | none => rfl
    | some c =>
      have : c ≠ '!' := fun he => hbang (he ▸ hh)
      simp [this]
  have h2 : (s.data.reverse.take 2 == [' ', '\\']) = false := by
    apply beq_eq_false_iff_ne.mpr
    intro he
    rcases hr : s.data.reverse with _ | ⟨a, tl⟩
    · rw [hr] at he
      simp at he
    · rw [hr] at he
      simp only [List.take_succ_cons, List.cons.injEq] at he
      apply hspace
      rw [← List.head?_reverse, hr, he.1]
      rfl
  have h3 : trimTrailingSpaces s.data = s.data := trimTrailingSpaces_id hspace
  have h4 : (s.data.getLast? == some '/') = false := by
    cases hh : s.data.getLast? with
    | none => rfl
    | some c =>
      have hmem : c ∈ s.data := List.mem_of_getLast?_eq_some hh
      have : c ≠ '/' := by
        intro he
        subst he
        have : s.data.contains '/' = true := by simpa using hmem
        rw [this] at hslash
        exact absurd hslash (by simp)
      simp [this]
  have h5 : splitSlash s.data = [s] := by
    rw [splitSlash_no_slash hslash]
  unfold ParsePattern
  simp only [h1, h2, h4, Bool.false_eq_true, if_false, h3, h5, hslash]

/-- A literal name, tried against every segment, matches exactly the paths
containing it as a segment. -/
theorem simpleNameMatch_literal {s : String}
    (hlit : s.data.all FilepathMatch.isLiteralChar = true) :
    ∀ (path : List String) (isDir : Bool),
      simpleNameMatch s false path isDir = path.contains s := by
  intro path isDir
  induction path with
  | nil => rfl
  | cons nm rest ih =>
    rw [simpleNameMatch, FilepathMatch.fpMatch_literal s nm hlit]
    by_cases he : s = nm
    · subst he
      simp
    · have h1 : (s == nm) = false := beq_eq_false_iff_ne.mpr he
      rw [h1]
      simp only [List.contains_cons, h1]
      simpa using ih

/-- A literal name pattern excludes exactly the paths containing the name as
a segment. -/
theorem MatchRes_literal {s : String} (h : LiteralName s) (path : List String)
    (hne : path ≠ []) (isDir : Bool) :
    (ParsePattern s []).MatchRes path isDir =
      if path.contains s then .Exclude else .NoMatch := by
  rw [ParsePattern_literal h]
  have hlen : ¬ path.length ≤ 0 := by
    cases path with
    | nil => exact absurd rfl hne
    | cons a t => simp
  unfold Pattern.MatchRes
  dsimp only
  simp only [List.length_nil]
  rw [if_neg hlen]
  simp only [List.isPrefixOf, Bool.not_true, Bool.false_eq_true, if_false, List.drop_zero]
  rw [show ([s].headD "") = s from rfl]
  rw [simpleNameMatch_literal h.1 path isDir]
  by_cases hc : path.contains s = true
  · simp [hc]
  · simp only [Bool.not_eq_true] at hc
    simp [hc]

/-- Appending a literal-name pattern last makes the matcher exclude every
path containing that name as a segment, whatever the earlier rules are. -/
theorem match_append_literal {s : String} (h : LiteralName s)
    (ps : Matcher) (path : List String) (hmem : s ∈ path) (isDir : Bool) :
    Matcher.Match (ps ++ [ParsePattern s []]) path isDir = true := by
  unfold Matcher.Match
  rw [List.reverse_append]
  simp only [List.reverse_singleton, List.singleton_append, firstDec]
  rw [MatchRes_literal h path (List.ne_nil_of_mem hmem) isDir]
  have hc : path.contains s = true := by simpa using hmem
  rw [if_pos hc]
  rfl

end Gitignore

namespace Processor

theorem RealChain.trans {fs : DirFS} {a : Nat} {pa : List String} {b : Nat}
    {pb : List String} {c : Nat} {pc : List String}
    (h1 : RealChain fs a pa b pb) (h2 : RealChain fs b pb c pc) :
    RealChain fs a pa c pc := by
  induction h2 with
  | refl => exact h1
  | step _ hmem ih => exact .step ih hmem

/-- Every file the walker emits was allowed by the matcher: its relative path
joins segments on which the matcher returned "not excluded". -/
theorem walkDir_mem_matcher (fs : DirFS) (m : Gitignore.Matcher) (follow : Bool) :
    ∀ (fuel id : Nat) (pre : List String) (onPath : List Nat) (fi : FileInfo),
      fi ∈ walkDir fs m follow fuel id pre onPath →
      ∃ segs, fi.RelativePath = joinSegs segs ∧
        Gitignore.Matcher.Match m segs false = false := by
  intro fuel
  induction fuel with
  | zero =>
    intro id pre onPath fi h
    simp [walkDir] at h
  | succ f ih =>
    intro id pre onPath fi h
    simp only [walkDir, List.mem_flatten, List.mem_map] at h
    obtain ⟨l, ⟨e, he, rfl⟩, hfi⟩ := h
    rcases e with ⟨nm, ent⟩
    cases ent with
    | file c =>
      dsimp only at hfi
      by_cases hm : Gitignore.Matcher.Match m (pre ++ [nm]) false = true
      · simp [hm] at hfi
      · simp only [Bool.not_eq_true] at hm
        simp only [hm, Bool.false_eq_true, if_false, List.mem_singleton] at hfi
        exact ⟨pre ++ [nm], by rw [hfi], hm⟩
    | linkFile c =>
      dsimp only at hfi
      by_cases hm : Gitignore.Matcher.Match m (pre ++ [nm]) false = true
      · simp [hm] at hfi
      · simp only [Bool.not_eq_true] at hm
        simp only [hm, Bool.false_eq_true, if_false, List.mem_singleton] at hfi
        exact ⟨pre ++ [nm], by rw [hfi], hm⟩
    | linkBroken => simp at hfi
    | subdir d =>
      dsimp only at hfi
      by_cases hd : (id :: onPath).contains d = true
      · rw [if_pos hd] at hfi
        simp at hfi
      · simp only [Bool.not_eq_true] at hd
        simp only [hd, Bool.false_eq_true, if_false] at hfi
        exact ih d (pre ++ [nm]) (id :: onPath) fi hfi
    | linkDir d =>
      dsimp only at hfi
      cases follow with
      | false => simp at hfi
      | true =>
        rw [if_pos rfl] at hfi
        by_cases hd : (id :: onPath).contains d = true
        · rw [if_pos hd] at hfi
          simp at hfi
        · simp only [Bool.not_eq_true] at hd
          simp only [hd, Bool.false_eq_true, if_false] at hfi
          exact ih d (pre ++ [nm]) (id :: onPath) fi hfi

end Processor

/-- Counterexample to C4 as stated: with the output file configured as
`./sandworm.txt` — a path under the root whose root-relative location is
`sandworm.txt` and which matches no other ignore rule — the final output-file
rule (parsed as the anchored glob `./sandworm.txt`, whose first segment `.`
matches nothing) fails to exclude it, and the output file appears among the
collected file entries. -/
theorem c4_counterexample_dot_slash_output_collected :
    (Processor.NewWithOptions ⟨fun _ => none⟩ "root" "./sandworm.txt" ""
        ⟨false, false⟩).toOption.map
        (fun p => (Processor.collectFiles c4dfs p).toOption) =
      some (some [⟨"sandworm.txt", some "out"⟩]) := by decide

/-- **C4 (amended).**  The self-exclusion rule appended after all other rules
is the configured output path parsed as a gitignore pattern, not a literal;
whenever that path is a plain file name (no slash, no glob metacharacter, no
leading `!`, no trailing space), (i) the matcher excludes every relative path
having that name as a segment, whatever the other rules are, and (ii) every
file entry the walker emits has a relative path none of whose segments is
that name — so the output file, wherever it resides under the root, never
appears among the collected entries. -/
theorem c4_output_self_exclusion_for_literal_names
    (out : String) (hlit : Gitignore.LiteralName out) :
    (∀ (ps : Gitignore.Matcher) (path : List String), out ∈ path →
      Gitignore.Matcher.Match (ps ++ [Gitignore.ParsePattern out []]) path false = true) ∧
    (∀ (fs : Processor.DirFS) (ps : Gitignore.Matcher) (follow : Bool)
        (fuel id : Nat) (pre : List String) (onPath : List Nat)
        (fi : Processor.FileInfo),
      fi ∈ Processor.walkDir fs (ps ++ [Gitignore.ParsePattern out []]) follow
        fuel id pre onPath →
      ∃ segs, fi.RelativePath = Processor.joinSegs segs ∧ out ∉ segs) := by
  constructor
  · intro ps path hmem
    exact Gitignore.match_append_literal hlit ps path hmem false
  · intro fs ps follow fuel id pre onPath fi hfi
    obtain ⟨segs, hrel, hmatch⟩ :=
      Processor.walkDir_mem_matcher fs (ps ++ [Gitignore.ParsePattern out []])
        follow fuel id pre onPath fi hfi
    refine ⟨segs, hrel, fun hout => ?_⟩
    rw [Gitignore.match_append_literal hlit ps segs hout false] at hmatch
    exact absurd hmatch (by simp)

/-- Witness for C4 (amended) at the literal name `sandworm.txt`: a path
containing the name is excluded, and a walk over a one-file tree emits an
entry whose segments avoid the name. -/
theorem c4_output_self_exclusion_for_literal_names_witness :
    Gitignore.Matcher.Match ([] ++ [Gitignore.ParsePattern "sandworm.txt" []])
      ["sandworm.txt"] false = true ∧
    ∃ segs, (Processor.FileInfo.mk "a.txt" (some "y")).RelativePath =
      Processor.joinSegs segs ∧ "sandworm.txt" ∉ segs := by
  have h := c4_output_self_exclusion_for_literal_names "sandworm.txt"
    ⟨by decide, by decide, by decide, by decide⟩
  exact ⟨h.1 [] ["sandworm.txt"] (by decide),
    h.2 ⟨[[("a.txt", .file (some "y"))]], 0⟩ [] false 2 0 [] []
      ⟨"a.txt", some "y"⟩ (by decide)⟩

/-- Counterexample to C9 as stated: with the output file configured as the
bare filename `a[b.txt` (no slash), the file of exactly that name at the root
is NOT excluded — `filepath.Match` rejects the unterminated character class
with an error, which go-git treats as "no match" — so not every file whose
name equals the configured bare filename is excluded. -/
theorem c9_counterexample_metachar_bare_name_collected :
    (Processor.NewWithOptions ⟨fun _ => none⟩ "root" "a[b.txt" ""
        ⟨false, false⟩).toOption.map
        (fun p => (Processor.collectFiles c9dfs p).toOption) =
      some (some [⟨"a[b.txt", some "x"⟩]) := by decide

/-- **C9 (amended).**  The output-file self-exclusion rule is an unanchored
gitignore pattern: when the configured output file path is a bare filename
free of glob metacharacters (no slash, no `*` `?` `[` `\`, no leading `!`, no
trailing space), every path at any depth having that filename as a segment —
in particular every file of that name, not only the configured output file
itself — is excluded, whatever the other rules are. -/
theorem c9_bare_output_name_excluded_at_any_depth
    (out : String) (hlit : Gitignore.LiteralName out) (ps : Gitignore.Matcher)
    (path : List String) (hmem : out ∈ path) (isDir : Bool) :
    Gitignore.Matcher.Match (ps ++ [Gitignore.ParsePattern out []]) path isDir = true :=
  Gitignore.match_append_literal hlit ps path hmem isDir

/-- Witness for C9 (amended): a file named like the output, two levels deep,
is excluded even with the full built-in rule set in front. -/
theorem c9_bare_output_name_excluded_at_any_depth_witness :
    Gitignore.Matcher.Match
      (Processor.builtinPatterns ++ [Gitignore.ParsePattern "out.txt" []])
      ["sub", "out.txt"] false = true :=
  c9_bare_output_name_excluded_at_any_depth "out.txt"
    ⟨by decide, by decide, by decide, by decide⟩
    Processor.builtinPatterns ["sub", "out.txt"] (by decide) false

/-- Counterexample to C3 as stated: with `followSymlinks = false`, a symbolic
link whose target is a regular file IS emitted as a file entry (the
`collectFiles` callback only skips symlinks that point at directories), so
"no symbolic link (whether it targets a directory or a file) appears as a
file entry" fails. -/
theorem c3_counterexample_file_symlink_emitted :
    Processor.walkDir linkFS [] false 3 0 [] [] = [⟨"link.txt", some "x"⟩] ∧
    ("link.txt", Processor.Ent.linkFile (some "x")) ∈ linkFS.dirs.getD 0 [] := by
  decide

/-- **C3 (amended).**  With `followSymlinks = false`, no symbolic link to a
directory is descended into or emitted: every emitted file entry is reached
through real subdirectories only and is either a regular file or a symbolic
link to a file (the latter IS emitted, read through the link). -/
theorem c3_no_follow_never_descends_symlinks
    (fs : Processor.DirFS) (m : Gitignore.Matcher) :
    ∀ (fuel id : Nat) (pre : List String) (onPath : List Nat)
      (fi : Processor.FileInfo),
      fi ∈ Processor.walkDir fs m false fuel id pre onPath →
      ∃ id' pre' nm c, Processor.RealChain fs id pre id' pre' ∧
        ((nm, Processor.Ent.file c) ∈ fs.dirs.getD id' [] ∨
         (nm, Processor.Ent.linkFile c) ∈ fs.dirs.getD id' []) ∧
        fi = ⟨Processor.joinSegs (pre' ++ [nm]), c⟩ := by
  intro fuel
  induction fuel with
  | zero =>
    intro id pre onPath fi h
    simp [Processor.walkDir] at h
  | succ f ih =>
    intro id pre onPath fi h
    simp only [Processor.walkDir, List.mem_flatten, List.mem_map] at h
    obtain ⟨l, ⟨e, he, rfl⟩, hfi⟩ := h
    have he' : e ∈ fs.dirs.getD id [] :=
      (SortUtil.sortKey_perm Prod.fst (fs.dirs.getD id [])).mem_iff.mp he
    rcases e with ⟨nm, ent⟩
    cases ent with
    | file c =>
      dsimp only at hfi
      by_cases hm : Gitignore.Matcher.Match m (pre ++ [nm]) false = true
      · simp [hm] at hfi
      · simp only [Bool.not_eq_true] at hm
        simp only [hm, Bool.false_eq_true, if_false, List.mem_singleton] at hfi
        exact ⟨id, pre, nm, c, .refl id pre, .inl he', hfi⟩
    | linkFile c =>
      dsimp only at hfi
      by_cases hm : Gitignore.Matcher.Match m (pre ++ [nm]) false = true
      · simp [hm] at hfi
      · simp only [Bool.not_eq_true] at hm
        simp only [hm, Bool.false_eq_true, if_false, List.mem_singleton] at hfi
        exact ⟨id, pre, nm, c, .refl id pre, .inr he', hfi⟩
    | linkBroken => simp at hfi
    | subdir d =>
      dsimp only at hfi
      by_cases hd : (id :: onPath).contains d = true
      · rw [if_pos hd] at hfi
        simp at hfi
      · simp only [Bool.not_eq_true] at hd
        simp only [hd, Bool.false_eq_true, if_false] at hfi
        obtain ⟨id', pre', nm', c, hch, hmem', hfi'⟩ :=
          ih d (pre ++ [nm]) (id :: onPath) fi hfi
        exact ⟨id', pre', nm', c,
          Processor.RealChain.trans (.step (.refl id pre) he') hch, hmem', hfi'⟩
    | linkDir d =>
      dsimp only at hfi
      simp at hfi

namespace Processor

/-- A directory identity with no entry list walks to nothing, at any fuel. -/
theorem walkDir_childless {fs : DirFS} {d : Nat} (h : fs.dirs.getD d [] = [])
    (m : Gitignore.Matcher) (follow : Bool) :
    ∀ (fuel : Nat) (pre : List String) (onPath : List Nat),
      walkDir fs m follow fuel d pre onPath = [] := by
  intro fuel pre onPath
  cases fuel with
  | zero => rfl
  | succ f =>
    simp only [walkDir, h, SortUtil.sortKey, List.map_nil, List.flatten_nil]

theorem length_filter_lt {α : Type} (l : List α) (p : α → Bool) (x : α)
    (hx : x ∈ l) (hpx : p x = false) : (l.filter p).length < l.length := by
  induction l with
  | nil => simp at hx
  | cons a t ih =>
    rcases List.mem_cons.mp hx with h | h
    · subst h
      simp only [List.filter_cons, hpx, Bool.false_eq_true, if_false]
      have := List.length_filter_le p t
      simp only [List.length_cons]
      omega
    · by_cases hpa : p a = true
      · simp only [List.filter_cons, hpa, if_true, List.length_cons]
        have := ih h
        omega
      · simp only [Bool.not_eq_true] at hpa
        simp only [List.filter_cons, hpa, Bool.false_eq_true, if_false, List.length_cons]
        have := ih h
        omega

theorem freeDirs_cons_lt {fs : DirFS} {d : Nat} {onPath : List Nat}
    (hval : d < fs.dirs.length) (hno : d ∉ onPath) :
    freeDirs fs (d :: onPath) < freeDirs fs onPath := by
  unfold freeDirs
  have hsplit :
      (List.range fs.dirs.length).filter (fun j => decide (j ∉ d :: onPath)) =
        ((List.range fs.dirs.length).filter (fun j => decide (j ∉ onPath))).filter
          (fun j => decide (j ≠ d)) := by
    rw [List.filter_filter]
    apply List.filter_congr
    intro j _
    by_cases h1 : j = d
    · subst h1
      simp
    · by_cases h2 : j ∈ onPath <;> simp [h1, h2]
  rw [hsplit]
  apply length_filter_lt _ _ d
  · exact List.mem_filter.mpr ⟨List.mem_range.mpr hval, by simpa using hno⟩
  · simp

/-- Fuel-independence of the walk beyond the bound: because the walker
refuses to re-enter any directory identity on the current descent path, every
chain of descents is bounded by the number of identities, and all fuels above
the bound produce the same traversal.  This is the termination content of the
cycle-prevention discipline. -/
theorem walkDir_fuel_stable (fs : DirFS) (m : Gitignore.Matcher) (follow : Bool) :
    ∀ (n id : Nat) (pre : List String) (onPath : List Nat) (fuel₁ fuel₂ : Nat),
      freeDirs fs (id :: onPath) ≤ n → n < fuel₁ → n < fuel₂ →
      walkDir fs m follow fuel₁ id pre onPath =
        walkDir fs m follow fuel₂ id pre onPath := by
  intro n
  induction n using Nat.strong_induction_on with
  | _ n ih =>
    intro id pre onPath fuel₁ fuel₂ hfree h1 h2
    cases fuel₁ with
    | zero => omega
    | succ a =>
      cases fuel₂ with
      | zero => omega
      | succ b =>
        simp only [walkDir]
        apply congrArg List.flatten
        apply List.map_congr_left
        intro e _
        rcases e with ⟨nm, ent⟩
        cases ent with
        | file c => rfl
        | linkFile c => rfl
        | linkBroken => rfl
        | subdir d =>
          dsimp only
          by_cases hd : (id :: onPath).contains d = true
          · rw [if_pos hd, if_pos hd]
          · simp only [Bool.not_eq_true] at hd
            simp only [hd, Bool.false_eq_true, if_false]
            have hdno : d ∉ id :: onPath := by simpa using hd
            by_cases hval : d < fs.dirs.length
            · have hlt : freeDirs fs (d :: id :: onPath) < freeDirs fs (id :: onPath) :=
                freeDirs_cons_lt hval hdno
              exact ih (freeDirs fs (d :: id :: onPath)) (by omega) d (pre ++ [nm])
                (id :: onPath) a b le_rfl (by omega) (by omega)
            · have hch : fs.dirs.getD d [] = [] :=
                List.getD_eq_default _ _ (by omega)
              rw [walkDir_childless hch, walkDir_childless hch]
        | linkDir d =>
          dsimp only
          cases follow with
          | false => rfl
          | true =>
            rw [if_pos rfl, if_pos rfl]
            by_cases hd : (id :: onPath).contains d = true
            · rw [if_pos hd, if_pos hd]
            · simp only [Bool.not_eq_true] at hd
              simp only [hd, Bool.false_eq_true, if_false]
              have hdno : d ∉ id :: onPath := by simpa using hd
              by_cases hval : d < fs.dirs.length
              · have hlt : freeDirs fs (d :: id :: onPath) < freeDirs fs (id :: onPath) :=
                  freeDirs_cons_lt hval hdno
                exact ih (freeDirs fs (d :: id :: onPath)) (by omega) d (pre ++ [nm])
                  (id :: onPath) a b le_rfl (by omega) (by omega)
              · have hch : fs.dirs.getD d [] = [] :=
                  List.getD_eq_default _ _ (by omega)
                rw [walkDir_childless hch, walkDir_childless hch]

end Processor

/-- **C7.**  Traversal with `followSymlinks = true` terminates on every
directory graph, symlink cycles included: the walker refuses to re-enter a
directory identity already on the current descent path, so any fuel above the
number of directory identities yields the same (finite) traversal — and on a
concrete tree whose subdirectory symlinks back to its ancestor, the walk
silently terminates that branch and still includes the non-cyclic files
reachable from both directories. -/
theorem c7_symlink_cycle_traversal_terminates :
    (∀ (fs : Processor.DirFS) (m : Gitignore.Matcher) (follow : Bool) (id : Nat)
        (pre : List String) (fuel : Nat), fs.dirs.length + 1 ≤ fuel →
      Processor.walkDir fs m follow fuel id pre [] =
        Processor.walkDir fs m follow (fs.dirs.length + 1) id pre []) ∧
    Processor.walkDir cycleFS [] true (cycleFS.dirs.length + 1) 0 [] [] =
      [⟨"dirA/f1.txt", some "a"⟩, ⟨"f0.txt", some "r"⟩] := by
  constructor
  · intro fs m follow id pre fuel hf
    have hfree : Processor.freeDirs fs (id :: []) ≤ fs.dirs.length := by
      have h := List.length_filter_le (fun j => decide (j ∉ ([id] : List Nat)))
        (List.range fs.dirs.length)
      simpa [Processor.freeDirs] using h
    exact Processor.walkDir_fuel_stable fs m follow fs.dirs.length id pre []
      fuel (fs.dirs.length + 1) hfree (by omega) (by omega)
  · decide

/-- Witness for C7: on the cyclic tree, fuel 10 and the canonical bound give
the same traversal. -/
theorem c7_symlink_cycle_traversal_terminates_witness :
    Processor.walkDir cycleFS [] true 10 0 [] [] =
      Processor.walkDir cycleFS [] true (cycleFS.dirs.length + 1) 0 [] [] :=
  c7_symlink_cycle_traversal_terminates.1 cycleFS [] true 0 [] 10 (by decide)

namespace Filetree

theorem enumFrom_lastSplit (G : Bool → Bool → String → List String) :
    ∀ (l : List (String × Bool)) (k L : Nat), k + l.length = L →
      ((List.enumFrom k l).map (fun e => G (e.1 == L - 1) e.2.2 e.2.1)).flatten =
        lastSplitRender G l := by
  intro l
  induction l with
  | nil => intro k L h; rfl
  | cons e rest ih =>
    intro k L h
    cases rest with
    | nil =>
      have hk : (k == L - 1) = true := by
        simp only [List.length_cons, List.length_nil] at h
        have : k = L - 1 := by omega
        simp [this]
      simp [List.enumFrom, hk, lastSplitRender]
    | cons e' rest' =>
      have hk : (k == L - 1) = false := by
        apply beq_eq_false_iff_ne.mpr
        simp only [List.length_cons] at h
        omega
      have hrec := ih (k + 1) L (by simp only [List.length_cons] at h ⊢; omega)
      rw [show List.enumFrom k (e :: e' :: rest') =
        (k, e) :: List.enumFrom (k + 1) (e' :: rest') from rfl]
      rw [List.map_cons, List.flatten_cons]
      dsimp only
      rw [hk, hrec]
      rfl

theorem lastSplit_eq_dropLast (G : Bool → Bool → String → List String) :
    ∀ (l : List (String × Bool)),
      lastSplitRender G l =
        match l.getLast? with
        | none => []
        | some lastE => (l.dropLast.map (fun e => G false e.2 e.1)).flatten
            ++ G true lastE.2 lastE.1 := by
  intro l
  induction l with
  | nil => rfl
  | cons e rest ih =>
    cases rest with
    | nil => simp [lastSplitRender]
    | cons e' rest' =>
      rw [lastSplitRender, ih]
      cases hgl2 : (e' :: rest').getLast? with
      | none => simp at hgl2
      | some lastE =>
        rw [show (e :: e' :: rest').getLast? = (e' :: rest').getLast? from rfl, hgl2]
        simp [List.append_assoc]

/-- The index-driven loop of `buildTree` coincides with the spec's
description of one level (`specLevel`). -/
theorem buildTree_succ_eq_specLevel (fuel : Nat) (n : Node) (pref : String) :
    buildTree (fuel + 1) n pref = specLevel fuel n pref := by
  have hlen : ((dirNames n.entries).map (fun nm => (nm, true))
      ++ (fileNames n.entries).map (fun nm => (nm, false))).length =
      (dirNames n.entries ++ fileNames n.entries).length := by simp
  have hspec : specLevel fuel n pref =
      lastSplitRender (specChildBlock fuel n.entries pref)
        ((dirNames n.entries).map (fun nm => (nm, true))
          ++ (fileNames n.entries).map (fun nm => (nm, false))) := by
    rw [lastSplit_eq_dropLast]
    rfl
  have henum := enumFrom_lastSplit (specChildBlock fuel n.entries pref)
    ((dirNames n.entries).map (fun nm => (nm, true))
      ++ (fileNames n.entries).map (fun nm => (nm, false))) 0
    ((dirNames n.entries).map (fun nm => (nm, true))
      ++ (fileNames n.entries).map (fun nm => (nm, false))).length (by simp)
  rw [hspec, ← henum, buildTree]
  dsimp only
  apply congrArg List.flatten
  apply List.ext_getElem (by simp)
  intro i ha hb
  rw [List.getElem_map, List.getElem_map, List.getElem_enum, List.getElem_enumFrom]
  have hi' : i < (dirNames n.entries ++ fileNames n.entries).length := by
    simpa using ha
  by_cases hi : i < (dirNames n.entries).length
  · rw [List.getElem_append_left hi, List.getElem_append_left
      (show i < ((dirNames n.entries).map (fun nm => (nm, true))).length by
        simpa using hi), List.getElem_map]
    dsimp only
    unfold specChildBlock
    simp [hi, hlen]
  · have hge : (dirNames n.entries).length ≤ i := by omega
    have hge' : ((dirNames n.entries).map (fun nm => (nm, true))).length ≤ i := by
      simpa using hge
    rw [List.getElem_append_right hge, List.getElem_append_right hge', List.getElem_map]
    dsimp only
    unfold specChildBlock
    simp [hi, hlen]

theorem lookup_isSome_of_mem_keys : ∀ {es : List (String × Node)} {k : String},
    k ∈ es.map Prod.fst → ∃ v, es.lookup k = some v := by
  intro es
  induction es with
  | nil => intro k h; simp at h
  | cons e t ih =>
    intro k h
    by_cases hk : k = e.1
    · exact ⟨e.2, by simp [List.lookup, hk]⟩
    · have hmem : k ∈ t.map Prod.fst := by
        rw [List.map_cons] at h
        rcases List.mem_cons.mp h with h' | h'
        · exact absurd h' hk
        · exact h'
      rcases ih hmem with ⟨v, hv⟩
      exact ⟨v, by simp [List.lookup, beq_eq_false_iff_ne.mpr hk, hv]⟩

theorem filter_map_fst {p : Node → Bool} : ∀ {es : List (String × Node)},
    (es.map Prod.fst).Nodup →
    (es.filter (fun e => p e.2)).map Prod.fst =
      (es.map Prod.fst).filter (fun k =>
        match es.lookup k with
        | some v => p v
        | none => false) := by
  intro es
  induction es with
  | nil => intro _; rfl
  | cons e t ih =>
    intro hnd
    rcases e with ⟨k0, v0⟩
    rw [List.map_cons] at hnd
    rcases List.nodup_cons.mp hnd with ⟨hk, hnd'⟩
    have hq0 : (fun k =>
        match ((k0, v0) :: t).lookup k with
        | some v => p v
        | none => false) k0 = p v0 := by
      simp [List.lookup]
    have htail : (t.map Prod.fst).filter (fun k =>
          match ((k0, v0) :: t).lookup k with
          | some v => p v
          | none => false) =
        (t.map Prod.fst).filter (fun k =>
          match t.lookup k with
          | some v => p v
          | none => false) := by
      apply List.filter_congr
      intro k hkmem
      have hne : (k == k0) = false :=
        beq_eq_false_iff_ne.mpr (fun he => hk (he ▸ hkmem))
      simp [List.lookup, hne]
    by_cases hp : p v0 = true
    · simp only [List.map_cons, List.filter_cons, hp, if_true, List.map_cons,
        hq0, htail, ih hnd']
    · simp only [Bool.not_eq_true] at hp
      simp only [List.map_cons, List.filter_cons, hp, Bool.false_eq_true, if_false,
        hq0, htail, ih hnd']

theorem NodeEquiv.entries_isEmpty {n₁ n₂ : Node} (h : NodeEquiv n₁ n₂) :
    n₁.entries.isEmpty = n₂.entries.isEmpty := by
  cases h with
  | @intro es₁ es₂ hnd hperm hval =>
    have hlen : es₁.length = es₂.length := by
      have h' := hperm.length_eq
      simpa using h'
    simp only [Node.entries]
    cases es₁ <;> cases es₂ <;> simp_all

theorem filterNames_perm {es₁ es₂ : List (String × Node)} {p : Node → Bool}
    (hnd : (es₁.map Prod.fst).Nodup)
    (hperm : (es₁.map Prod.fst).Perm (es₂.map Prod.fst))
    (hval : ∀ k n₁ n₂, es₁.lookup k = some n₁ → es₂.lookup k = some n₂ → p n₁ = p n₂) :
    ((es₁.filter (fun e => p e.2)).map Prod.fst).Perm
      ((es₂.filter (fun e => p e.2)).map Prod.fst) := by
  have hnd₂ : (es₂.map Prod.fst).Nodup := hperm.nodup hnd
  rw [filter_map_fst hnd, filter_map_fst hnd₂]
  have hstep := hperm.filter (fun k =>
    match es₁.lookup k with
    | some v => p v
    | none => false)
  have hcong : (es₂.map Prod.fst).filter (fun k =>
        match es₁.lookup k with
        | some v => p v
        | none => false) =
      (es₂.map Prod.fst).filter (fun k =>
        match es₂.lookup k with
        | some v => p v
        | none => false) := by
    apply List.filter_congr
    intro k hk2
    have hk1 : k ∈ es₁.map Prod.fst := hperm.mem_iff.mpr hk2
    rcases lookup_isSome_of_mem_keys hk1 with ⟨v₁, hv₁⟩
    rcases lookup_isSome_of_mem_keys hk2 with ⟨v₂, hv₂⟩
    rw [hv₁, hv₂]
    exact hval k v₁ v₂ hv₁ hv₂
  rw [hcong] at hstep
  exact hstep

theorem sortedFilterNames_eq {es₁ es₂ : List (String × Node)}
    (hnd : (es₁.map Prod.fst).Nodup)
    (hperm : (es₁.map Prod.fst).Perm (es₂.map Prod.fst))
    (hval : ∀ k n₁ n₂, es₁.lookup k = some n₁ → es₂.lookup k = some n₂ → NodeEquiv n₁ n₂)
    (p : Node → Bool) (hp : ∀ a b : Node, NodeEquiv a b → p a = p b) :
    SortUtil.sortKey id ((es₁.filter (fun e => p e.2)).map Prod.fst) =
      SortUtil.sortKey id ((es₂.filter (fun e => p e.2)).map Prod.fst) := by
  have hpf := filterNames_perm hnd hperm
    (fun k n₁ n₂ h₁ h₂ => hp n₁ n₂ (hval k n₁ n₂ h₁ h₂))
  have hndf : ((es₁.filter (fun e => p e.2)).map Prod.fst).Nodup := by
    rw [filter_map_fst hnd]
    exact hnd.filter _
  exact SortUtil.sorted_perm_nodupkeys_eq id (SortUtil.sortKey_sorted _ _)
    (SortUtil.sortKey_sorted _ _)
    (((SortUtil.sortKey_perm _ _).trans hpf).trans (SortUtil.sortKey_perm _ _).symm)
    (by simpa using (SortUtil.sortKey_perm id _).symm.nodup hndf)

theorem childOf_equiv {es₁ es₂ : List (String × Node)}
    (hperm : (es₁.map Prod.fst).Perm (es₂.map Prod.fst))
    (hval : ∀ k n₁ n₂, es₁.lookup k = some n₁ → es₂.lookup k = some n₂ → NodeEquiv n₁ n₂)
    {nm : String} (hmem : nm ∈ es₁.map Prod.fst) :
    NodeEquiv (childOf es₁ nm) (childOf es₂ nm) := by
  rcases lookup_isSome_of_mem_keys hmem with ⟨v₁, hv₁⟩
  rcases lookup_isSome_of_mem_keys (hperm.mem_iff.mp hmem) with ⟨v₂, hv₂⟩
  rw [childOf, childOf, hv₁, hv₂]
  exact hval nm v₁ v₂ hv₁ hv₂

/-- The rendering depends only on the map contents, not on the iteration
order of the underlying Go map. -/
theorem buildTree_equiv : ∀ (fuel : Nat) {t₁ t₂ : Node}, NodeEquiv t₁ t₂ →
    ∀ pref, buildTree fuel t₁ pref = buildTree fuel t₂ pref := by
  intro fuel
  induction fuel with
  | zero => intro t₁ t₂ _ pref; rfl
  | succ f ih =>
    intro t₁ t₂ h pref
    cases h with
    | @intro es₁ es₂ hnd hperm hval =>
      have hdn : dirNames es₁ = dirNames es₂ := by
        unfold dirNames
        exact sortedFilterNames_eq hnd hperm hval (fun nd => !nd.entries.isEmpty)
          (fun a b hab => by dsimp only; rw [hab.entries_isEmpty])
      have hfn : fileNames es₁ = fileNames es₂ := by
        unfold fileNames
        exact sortedFilterNames_eq hnd hperm hval (fun nd => nd.entries.isEmpty)
          (fun a b hab => hab.entries_isEmpty)
      rw [buildTree, buildTree]
      dsimp only [Node.entries]
      rw [← hdn, ← hfn]
      apply congrArg List.flatten
      apply List.map_congr_left
      intro e he
      have hnm : e.2 ∈ dirNames es₁ ++ fileNames es₁ := List.snd_mem_of_mem_enum he
      have hkey : e.2 ∈ es₁.map Prod.fst := by
        rcases List.mem_append.mp hnm with hd | hf
        · rw [dirNames] at hd
          have hx := (SortUtil.sortKey_perm id _).mem_iff.mp hd
          rcases List.mem_map.mp hx with ⟨pr, hpr, hfst⟩
          exact hfst ▸ List.mem_map_of_mem Prod.fst (List.mem_of_mem_filter hpr)
        · rw [fileNames] at hf
          have hx := (SortUtil.sortKey_perm id _).mem_iff.mp hf
          rcases List.mem_map.mp hx with ⟨pr, hpr, hfst⟩
          exact hfst ▸ List.mem_map_of_mem Prod.fst (List.mem_of_mem_filter hpr)
      have hchild := childOf_equiv hperm hval hkey
      by_cases hi : e.1 < (dirNames es₁).length
      · simp only [hi, if_true]
        rw [ih hchild]
      · simp only [hi, if_false]

end Filetree

namespace Processor

theorem walkDir_direquiv {fs₁ fs₂ : DirFS} (hwn : WellNamed fs₁)
    (heq : DirEquiv fs₁ fs₂) (m : Gitignore.Matcher) (follow : Bool) :
    ∀ (fuel id : Nat) (pre : List String) (onPath : List Nat),
      walkDir fs₁ m follow fuel id pre onPath =
        walkDir fs₂ m follow fuel id pre onPath := by
  intro fuel
  induction fuel with
  | zero => intro id pre onPath; rfl
  | succ f ih =>
    intro id pre onPath
    have hsort : SortUtil.sortKey Prod.fst (fs₁.dirs.getD id []) =
        SortUtil.sortKey Prod.fst (fs₂.dirs.getD id []) := by
      apply SortUtil.sorted_perm_nodupkeys_eq Prod.fst
        (SortUtil.sortKey_sorted _ _) (SortUtil.sortKey_sorted _ _)
        (((SortUtil.sortKey_perm _ _).trans (heq.2.2 id)).trans
          (SortUtil.sortKey_perm _ _).symm)
      have hp : ((SortUtil.sortKey Prod.fst (fs₁.dirs.getD id [])).map Prod.fst).Perm
          ((fs₁.dirs.getD id []).map Prod.fst) := (SortUtil.sortKey_perm _ _).map _
      exact hp.symm.nodup (hwn id)
    rw [walkDir, walkDir, hsort]
    apply congrArg List.flatten
    apply List.map_congr_left
    intro e _
    rcases e with ⟨nm, ent⟩
    cases ent with
    | file c => rfl
    | linkFile c => rfl
    | linkBroken => rfl
    | subdir d =>
      dsimp only
      by_cases hd : (id :: onPath).contains d = true
      · rw [if_pos hd, if_pos hd]
      · simp only [Bool.not_eq_true] at hd
        simp only [hd, Bool.false_eq_true, if_false]
        exact ih d (pre ++ [nm]) (id :: onPath)
    | linkDir d =>
      dsimp only
      cases follow with
      | false => rfl
      | true =>
        rw [if_pos rfl, if_pos rfl]
        by_cases hd : (id :: onPath).contains d = true
        · rw [if_pos hd, if_pos hd]
        · simp only [Bool.not_eq_true] at hd
          simp only [hd, Bool.false_eq_true, if_false]
          exact ih d (pre ++ [nm]) (id :: onPath)

theorem collectFiles_direquiv {fs₁ fs₂ : DirFS} (hwn : WellNamed fs₁)
    (heq : DirEquiv fs₁ fs₂) (p : Proc) :
    collectFiles fs₁ p = collectFiles fs₂ p := by
  unfold collectFiles
  rw [← heq.1, ← heq.2.1]
  by_cases hr : fs₁.root < fs₁.dirs.length
  · rw [if_pos hr, if_pos hr]
    rw [walkDir_direquiv hwn heq]
  · rw [if_neg hr, if_neg hr]

end Processor

/-- The empty Go map is equivalent to itself. -/
theorem nodeEquiv_nil : Filetree.NodeEquiv (.mk []) (.mk []) :=
  .intro (by simp) (List.Perm.refl _)
    (fun k n₁ n₂ h₁ _ => by simp [List.lookup] at h₁)

/-- **C8.**  Assembly is deterministic: two runs over the same unchanged tree
(same directories and contents, presented by the operating system in possibly
different orders) produce byte-identical output and the same byte count; the
tree rendering likewise depends only on the contents of the Go map, not its
iteration order; and the returned byte count equals the size of the written
output document. -/
theorem c8_assembly_deterministic :
    (∀ (fs₁ fs₂ : Processor.DirFS) (p : Processor.Proc),
      Processor.WellNamed fs₁ → Processor.DirEquiv fs₁ fs₂ →
      Processor.Process fs₁ p = Processor.Process fs₂ p) ∧
    (∀ (t₁ t₂ : Filetree.Node) (fuel : Nat) (label : String),
      Filetree.NodeEquiv t₁ t₂ →
      Filetree.NodeString fuel t₁ label = Filetree.NodeString fuel t₂ label) ∧
    (∀ (dfs : Processor.DirFS) (p : Processor.Proc) (out : String),
      (Processor.Process dfs p).finalContent = some out →
      (Processor.Process dfs p).size = out.utf8ByteSize) := by
  refine ⟨?_, ?_, ?_⟩
  · intro fs₁ fs₂ p hwn heq
    unfold Processor.Process
    rw [Processor.collectFiles_direquiv hwn heq]
  · intro t₁ t₂ fuel label h
    unfold Filetree.NodeString
    rw [Filetree.buildTree_equiv fuel h]
  · intro dfs p out h
    cases hc : Processor.collectFiles dfs p with
    | error e =>
      simp [Processor.Process, hc] at h
    | ok files =>
      cases hw : Processor.writeContents files p.printLineNumbers with
      | error e =>
        simp [Processor.Process, hc, hw] at h
      | ok body =>
        simp only [Processor.Process, hc, hw, Option.some.injEq] at h ⊢
        rw [← h]

/-- Witness for C8 at concrete data: swapped directory listings produce the
same document, swapped map orders render the same tree, and the byte count is
the output's size. -/
theorem c8_assembly_deterministic_witness :
    Processor.Process c8fsA ⟨"r", "o", "", [], false, false⟩ =
      Processor.Process c8fsB ⟨"r", "o", "", [], false, false⟩ ∧
    Filetree.NodeString 2 c8tA "" = Filetree.NodeString 2 c8tB "" ∧
    (Processor.Process c8fsA ⟨"r", "o", "", [], false, false⟩).size =
      ((Processor.Process c8fsA ⟨"r", "o", "", [], false, false⟩).finalContent.getD
        "").utf8ByteSize := by
  have hwn : Processor.WellNamed c8fsA := by
    intro id
    cases id with
    | zero => decide
    | succ n => exact List.Pairwise.nil
  have heq : Processor.DirEquiv c8fsA c8fsB := by
    refine ⟨rfl, rfl, ?_⟩
    intro id
    cases id with
    | zero => decide
    | succ n => exact List.Perm.refl []
  have ht : Filetree.NodeEquiv c8tA c8tB := by
    refine Filetree.NodeEquiv.intro (by decide) (by decide) ?_
    intro k n₁ n₂ h₁ h₂
    have e₁ : n₁ = Filetree.Node.mk [] := by
      cases ha : (k == "a") <;> cases hb : (k == "b") <;>
        simp only [c8tA, List.lookup, ha, hb, Option.some.injEq] at h₁ <;>
        first
          | exact h₁.symm
          | exact Option.noConfusion h₁
    have e₂ : n₂ = Filetree.Node.mk [] := by
      cases ha : (k == "a") <;> cases hb : (k == "b") <;>
        simp only [c8tB, List.lookup, ha, hb, Option.some.injEq] at h₂ <;>
        first
          | exact h₂.symm
          | exact Option.noConfusion h₂
    rw [e₁, e₂]
    exact nodeEquiv_nil
  refine ⟨c8_assembly_deterministic.1 c8fsA c8fsB ⟨"r", "o", "", [], false, false⟩ hwn heq,
    c8_assembly_deterministic.2.1 c8tA c8tB 2 "" ht,
    c8_assembly_deterministic.2.2 c8fsA ⟨"r", "o", "", [], false, false⟩ _ rfl⟩

/-- **C5.**  Tree rendering is a pure function of the input path list: at
every level the sorted directory children are listed before the sorted file
children, the last sibling of the combined sequence gets `└── ` and every
other sibling `├── ` (the rendering loop equals the spec's description,
`specLevel`); the root line is `/` plus the caller label and empty input
yields just the root line; and `Build ["b/x.txt", "a.txt"] ""` lists `b/`
before `a.txt` with those connectors. -/
theorem c5_tree_rendering_order_and_connectors :
    (∀ (fuel : Nat) (n : Filetree.Node) (pref : String),
      Filetree.buildTree (fuel + 1) n pref = Filetree.specLevel fuel n pref) ∧
    (∀ label : String, Filetree.Build [] label = "/" ++ label) ∧
    Filetree.Build ["b/x.txt", "a.txt"] "" =
      "/\n├── b/\n│   └── x.txt\n└── a.txt" := by
  refine ⟨Filetree.buildTree_succ_eq_specLevel, fun label => ?_, by decide⟩
  rfl

theorem c3_no_follow_never_descends_symlinks_witness :
    ∃ id' pre' nm c, Processor.RealChain linkFS 0 [] id' pre' ∧
      ((nm, Processor.Ent.file c) ∈ linkFS.dirs.getD id' [] ∨
       (nm, Processor.Ent.linkFile c) ∈ linkFS.dirs.getD id' []) ∧
      (⟨"link.txt", some "x"⟩ : Processor.FileInfo) =
        ⟨Processor.joinSegs (pre' ++ [nm]), c⟩ :=
  c3_no_follow_never_descends_symlinks linkFS [] 3 0 [] []
    ⟨"link.txt", some "x"⟩ (by decide)
